import Mathlib

/-!
# bzimmer/manual: command-tree flattening, environment variables, fragment lookup

A shallow embedding of `manual.go`.

* Go strings are Lean `String`s; `<` on Go strings is the lexicographic order of
  their characters (`stringLess`), which is the order of `String` in Lean.
* Go slices of `*cli.Command` are modelled with their backing arrays: a `Heap`
  is the list of the arrays allocated so far, a `Slice` is an array index with a
  length and a capacity, and `appendSlice` writes in place when there is spare
  capacity and allocates a larger array otherwise, as `append` does.
* `sort.SliceStable` and `sort.Strings` are modelled by a stable insertion sort.
* The file system and the embedded file set are a `World` of functions.
* The writer of the application is the list of the writes it has received; an
  action gives the writer afterwards and the error it returns.
-/

namespace Manual

/-! ## Data model -/

/-- The concrete flag types of `urfave/cli` behind the `cli.Flag` interface. -/
inductive FlagKind where
  | StringFlag
  | BoolFlag
  | Int64Flag
  | IntFlag
  | UintFlag
  | Uint64Flag
  | Float64Flag
  | DurationFlag
  | TimestampFlag
  | PathFlag
  | GenericFlag
  | StringSliceFlag
  | IntSliceFlag
  | Int64SliceFlag
  | Float64SliceFlag
  deriving DecidableEq, Repr

/-- A `cli.Flag`: its concrete type, what `Names()` returns, and the `EnvVars`
and `Usage` fields of the concrete type. -/
structure Flag where
  kind : FlagKind
  Names : List String
  EnvVars : List String
  Usage : String
  deriving DecidableEq, Repr

/-- A `cli.Command` with the fields `manual.go` reads; `Action` records whether
the action function is non-nil. -/
inductive Command where
  | mk (Name Usage Description : String) (Aliases : List String) (Flags : List Flag)
      (Action Hidden : Bool) (Subcommands : List Command)

namespace Command

def Name : Command → String
  | mk n _ _ _ _ _ _ _ => n

def Usage : Command → String
  | mk _ u _ _ _ _ _ _ => u

def Description : Command → String
  | mk _ _ d _ _ _ _ _ => d

def Aliases : Command → List String
  | mk _ _ _ a _ _ _ _ => a

def Flags : Command → List Flag
  | mk _ _ _ _ f _ _ _ => f

def Action : Command → Bool
  | mk _ _ _ _ _ a _ _ => a

def Hidden : Command → Bool
  | mk _ _ _ _ _ _ h _ => h

def Subcommands : Command → List Command
  | mk _ _ _ _ _ _ _ s => s

end Command

/-! ## Strings and sorting -/

/-- Go's `a < b` on strings. -/
def stringLess (a b : String) : Bool := decide (a.toList < b.toList)

/-- One step of a stable insertion: `x` goes in front of the first element that
is not less than it. -/
def insertStable {α : Type} (less : α → α → Bool) (x : α) : List α → List α
  | [] => [x]
  | y :: ys => if less y x then y :: insertStable less x ys else x :: y :: ys

/-- `sort.SliceStable(x, less)`: the stable sort of `x` under `less`. -/
def SliceStable {α : Type} (less : α → α → Bool) : List α → List α
  | [] => []
  | x :: xs => insertStable less x (SliceStable less xs)

/-- `sort.Strings(k)`. -/
def sortStrings (k : List String) : List String := SliceStable stringLess k

/-! ## envvars -/

/-- The assignment `vars[env] = true` on the key set of the map. -/
def setVar (vars : List String) (env : String) : List String :=
  if env ∈ vars then vars else vars ++ [env]

/-- The body of the type switch of `envvars` for one flag. -/
def envvarsFlag (vars : List String) (flag : Flag) : List String :=
  match flag.kind with
  | .StringFlag => flag.EnvVars.foldl setVar vars
  | .BoolFlag => flag.EnvVars.foldl setVar vars
  | .Int64Flag => flag.EnvVars.foldl setVar vars
  | _ => vars

/-- The flag types the type switch of `envvars` has a case for. -/
def scanned : FlagKind → Bool
  | .StringFlag => true
  | .BoolFlag => true
  | .Int64Flag => true
  | _ => false

/-- The function `envvars`: the keys collected from the flags, sorted. -/
def envvars (flags : List Flag) : List String :=
  sortStrings (flags.foldl envvarsFlag [])

/-! ## Slices of commands -/

/-- The backing arrays allocated so far; an array is kept as the list of the
slots written so far (the slots after them hold nil and are never read). -/
abbrev Heap := List (List Command)

/-- A `[]*cli.Command` value: backing array, length, capacity. -/
structure Slice where
  array : Nat
  len : Nat
  cap : Nat
  deriving DecidableEq, Repr

/-- The nil slice. -/
def Slice.nil : Slice := ⟨0, 0, 0⟩

/-- The elements `s[0], ..., s[len-1]` as the heap holds them now. -/
def Slice.elems (h : Heap) (s : Slice) : List Command :=
  (h.getD s.array []).take s.len

/-- The capacity the Go runtime (`runtime.growslice` for pointer elements on a
64-bit target) gives a full slice of capacity `oldCap` that grows by one
element: 1 for an empty slice, double below 256, a quarter more plus 192 from
there on. The rounding to an allocation size class is left out: it changes no
capacity up to 64, and from there on the runtime may give more (143 for a full
slice of capacity 64 where allocations carry a header). The examples below
reach capacity 8 and the general theorems on intact lineages capacity 4. -/
def nextslicecap (oldCap : Nat) : Nat :=
  let newLen := oldCap + 1
  let doublecap := oldCap + oldCap
  if newLen > doublecap then newLen
  else if oldCap < 256 then doublecap
  else oldCap + (oldCap + 3 * 256) / 4

/-- The builtin `append(s, x)`: with spare capacity the element is written into
the backing array of `s`, otherwise the elements are copied into a new array. -/
def appendSlice (h : Heap) (s : Slice) (x : Command) : Heap × Slice :=
  if s.len < s.cap then
    (h.set s.array ((h.getD s.array []).take s.len ++ x :: (h.getD s.array []).drop (s.len + 1)),
      { s with len := s.len + 1 })
  else
    (h ++ [(h.getD s.array []).take s.len ++ [x]],
      { array := h.length, len := s.len + 1, cap := nextslicecap s.cap })

/-! ## Command records -/

/-- The struct `command`. -/
structure command where
  Cmd : Command
  Lineage : Slice

/-- The method `fullname`. -/
def command.fullname (h : Heap) (c : command) (sep : String) : String :=
  String.intercalate sep ((c.Lineage.elems h).map Command.Name ++ [c.Cmd.Name])

/-- The method `aliases`: nil for nil aliases, otherwise the loop that appends
every alias that is not the empty string. -/
def command.aliases (c : command) : List String :=
  if c.Cmd.Aliases = [] then []
  else c.Cmd.Aliases.foldl (fun s a => if a ≠ "" then s ++ [a] else s) []

/-- The comparison passed to `sort.SliceStable` in `lineate`. -/
def fullnameLess (h : Heap) (a b : command) : Bool :=
  stringLess (a.fullname h "") (b.fullname h "")

mutual

/-- One iteration of the loop of `lineate`, for the command `cmds[i]`; the call
`lineate(cmds[i].Subcommands, append(lineage, cmds[i]))` is unfolded into its
loop and its sort. -/
def lineateCmd (h : Heap) (lineage : Slice) (commands : List command) :
    Command → Heap × List command
  | .mk n u d a f act hid subs =>
    if hid then (h, commands)
    else
      let (h1, lineage1) := appendSlice h lineage (.mk n u d a f act hid subs)
      let (h2, sub) := lineateRange h1 lineage1 [] subs
      (h2, (commands ++ [⟨.mk n u d a f act hid subs, lineage⟩]) ++
        SliceStable (fullnameLess h2) sub)

/-- The loop `for i := range cmds` of `lineate`. -/
def lineateRange (h : Heap) (lineage : Slice) (commands : List command) :
    List Command → Heap × List command
  | [] => (h, commands)
  | c :: rest =>
    let (h1, commands1) := lineateCmd h lineage commands c
    lineateRange h1 lineage commands1 rest

end

/-- The function `lineate`: the loop, then the stable sort by `fullname("")`. -/
def lineate (h : Heap) (cmds : List Command) (lineage : Slice) : Heap × List command :=
  let (h1, commands) := lineateRange h lineage [] cmds
  (h1, SliceStable (fullnameLess h1) commands)

/-! ## Fragment files -/

/-- The errors of `os.Open`, `io.ReadAll` and the embedded file set, as far as
`os.IsNotExist` tells them apart. -/
inductive Error where
  | notExist (path : String)
  | other (msg : String)
  deriving DecidableEq, Repr

/-- The test `os.IsNotExist(err)`. -/
def Error.IsNotExist : Error → Bool
  | .notExist _ => true
  | .other _ => false

/-- An opened file, given by what `io.ReadAll` returns for it. -/
abbrev File := Except Error String

/-- What `read` sees of its surroundings: `filepath.Join`, `os.Open` on the
file system and `content.Open` on the embedded files. -/
structure World where
  Join : String → String → String
  osOpen : String → Except Error File
  embedOpen : String → Except Error File

/-- The loop `for i := range paths` of `read`; `contents` is nil (`none`) until
a file has been read. -/
def readLoop (w : World) (name : String) :
    List String → Option String → Except Error (Option String)
  | [], contents => .ok contents
  | p :: ps, contents =>
    match w.osOpen (w.Join p name) with
    | .error err => if !err.IsNotExist then .error err else readLoop w name ps contents
    | .ok fp =>
      match fp with
      | .error err => .error err
      | .ok data => readLoop w name ps (some data)

/-- The function `read`. -/
def read (w : World) (name : String) (paths : List String) : Except Error String :=
  match readLoop w name paths none with
  | .error err => .error err
  | .ok (some contents) => .ok contents
  | .ok none =>
    match w.embedOpen (w.Join "templates" name) with
    | .error err => .error err
    | .ok fp =>
      match fp with
      | .error err => .error err
      | .ok data => .ok data

/-- The function `commandsTemplate`; `parse` stands for
`template.New("commands").Funcs(...).Parse`. -/
def commandsTemplate {τ : Type} (w : World) (parse : String → Except Error τ)
    (paths : List String) : Except Error τ :=
  match read w "_commands.md" paths with
  | .error err => .error err
  | .ok man => parse man

/-- The template function `"partial"` of `commandsTemplate`. -/
def partialFunc (w : World) (paths : List String) (fn : String) : Except Error String :=
  match read w (fn ++ ".md") paths with
  | .error err => if err.IsNotExist then .ok "" else .error err
  | .ok usage => .ok usage

/-- Opening `name` in the directory `p` fails with a not-found error. -/
def Missing (w : World) (name p : String) : Prop :=
  ∃ e, w.osOpen (w.Join p name) = .error e ∧ e.IsNotExist = true

/-- The directory `p` holds the file `name` with the content `c`: it opens and
is read without error. -/
def Holds (w : World) (name p c : String) : Prop :=
  w.osOpen (w.Join p name) = .ok (.ok c)

/-! ## The flattening as the specification words it -/

/-- A command record with its lineage as a plain list of ancestors. -/
structure Record where
  Cmd : Command
  Lineage : List Command

/-- The fully-qualified name of a record: lineage names, then the own name,
joined by `sep`. -/
def Record.fullname (r : Record) (sep : String) : String :=
  String.intercalate sep (r.Lineage.map Command.Name ++ [r.Cmd.Name])

/-- What a record of `lineate` holds once its lineage is read from the heap. -/
def command.record (h : Heap) (c : command) : Record :=
  ⟨c.Cmd, c.Lineage.elems h⟩

mutual

/-- Pre-order traversal below one command: nothing for a hidden command,
otherwise the command with the lineage so far, then its subcommands with the
lineage extended by it. -/
def preorderCmd (lineage : List Command) : Command → List Record
  | .mk n u d a f act hid subs =>
    if hid then []
    else
      ⟨.mk n u d a f act hid subs, lineage⟩ ::
        preorderRange (lineage ++ [.mk n u d a f act hid subs]) subs

/-- Pre-order traversal of a list of siblings, in declared order. -/
def preorderRange (lineage : List Command) : List Command → List Record
  | [] => []
  | c :: rest => preorderCmd lineage c ++ preorderRange lineage rest

end

/-- The order of the full names without separator, on records. -/
def recordLess (a b : Record) : Bool :=
  stringLess (a.fullname "") (b.fullname "")

/-- The flattened list of the specification: the pre-order traversal of the
visible nodes, stable-sorted once by `fullname("")`. -/
def lineateSpec (cmds : List Command) : List Record :=
  SliceStable (fun a b => stringLess (a.fullname "") (b.fullname "")) (preorderRange [] cmds)

mutual

/-- The visible commands below one command: none when it is hidden, otherwise
itself and the visible commands among its subcommands. -/
def visibleCmd : Command → List Command
  | .mk n u d a f act hid subs =>
    if hid then [] else .mk n u d a f act hid subs :: visibleRange subs

/-- The commands of a list of trees that are not hidden and have no hidden
ancestor. -/
def visibleRange : List Command → List Command
  | [] => []
  | c :: rest => visibleCmd c ++ visibleRange rest

end

/-- The command `c` is reached from the roots `cmds` through the ancestors
`anc` (outermost first), and neither `c` nor any of them is hidden. -/
inductive Reaches : List Command → List Command → Command → Prop where
  | root {cmds : List Command} {c : Command} :
      c ∈ cmds → c.Hidden = false → Reaches cmds [] c
  | sub {cmds : List Command} {p : Command} {anc : List Command} {c : Command} :
      p ∈ cmds → p.Hidden = false → Reaches p.Subcommands anc c → Reaches cmds (p :: anc) c

/-! ## Invariants of the loop -/

/-- Every command stored in a backing array is visible. -/
def HeapVisible (h : Heap) : Prop :=
  ∀ arr ∈ h, ∀ c ∈ arr, c.Hidden = false

/-- What the loop of `lineate` keeps: visible heap, and every record added is a
visible command reached through visible ancestors. -/
def LoopVisible (cmds : List Command) : Prop :=
  ∀ (h : Heap) (lineage : Slice) (commands : List command), HeapVisible h →
    HeapVisible (lineateRange h lineage commands cmds).1 ∧
    ∀ r ∈ (lineateRange h lineage commands cmds).2,
      r ∈ commands ∨ (r.Cmd.Hidden = false ∧ ∃ anc, Reaches cmds anc r.Cmd)

/-! ## Example inputs -/

/-- A visible command with an action and the given subcommands. -/
def exampleCommand (name : String) (subs : List Command) : Command :=
  .mk name "" "" [] [] true false subs

/-- A tree of depth five: `a > b > c > {d > e, x}`. -/
def exampleDeep : List Command :=
  [exampleCommand "a" [exampleCommand "b" [exampleCommand "c"
    [exampleCommand "d" [exampleCommand "e" []], exampleCommand "x" []]]]]

/-- A tree of depth six: `a > b > c > {d > {qa > s, as}, dq}`. -/
def exampleTies : List Command :=
  [exampleCommand "a" [exampleCommand "b" [exampleCommand "c"
    [exampleCommand "d" [exampleCommand "qa" [exampleCommand "s" []], exampleCommand "as" []],
      exampleCommand "dq" []]]]]

/-- Directories `A` and `B` both hold `x.md`; only `_commands.md` is embedded. -/
def exampleWorld : World where
  Join := fun dir name => dir ++ "/" ++ name
  osOpen := fun path =>
    if path = "A/x.md" then .ok (.ok "from A")
    else if path = "B/x.md" then .ok (.ok "from B")
    else .error (.notExist path)
  embedOpen := fun path =>
    if path = "templates/_commands.md" then .ok (.ok "embedded") else .error (.notExist path)

/-! ## The template function names -/

/-- The template function `"names"` of `commandsTemplate`. -/
def namesFunc (f : Flag) : String :=
  if f.Names.length ≤ 1 then "" else String.intercalate ", " (f.Names.drop 1)

/-! ## The actions -/

/-- The fields of `cli.App` the actions read. -/
structure App where
  Name : String
  Description : String
  Flags : List Flag
  Commands : List Command

/-- The writer `c.App.Writer`, as the sequence of the writes it has received. -/
abbrev Writer := List String

/-- What the `commands` action asks of the process in relative mode:
`os.Getwd`, `os.Executable`, `filepath.Rel` and `filepath.Abs`. -/
structure Proc where
  Getwd : Except Error String
  Executable : Except Error String
  Rel : String → String → Except Error String
  Abs : String → Except Error String

/-- The prefix `cmd` of the lines of the `commands` action: the application
name, or in relative mode the resolved path of the executable. -/
def commandPrefix (p : Proc) (app : App) (relative : Bool) : Except Error String :=
  if relative then
    match p.Getwd with
    | .error err => .error err
    | .ok cwd =>
      match p.Executable with
      | .error err => .error err
      | .ok exe =>
        match p.Rel cwd exe with
        | .error err => .error err
        | .ok rel =>
          match p.Abs rel with
          | .error err => .error err
          | .ok cmd => .ok cmd
  else .ok app.Name

/-- The loop over `[]string{m.Cmd.Description, m.Cmd.Usage}`: the first
non-empty text is printed after `#` and the loop is left. -/
def printDescription (out : Writer) : List String → Writer
  | [] => out
  | x :: xs => if x ≠ "" then out ++ ["# " ++ x ++ "\n"] else printDescription out xs

/-- The body of the loop of the `commands` action for the record `m`. -/
def commandsStep (h : Heap) (cmd : String) (desc : Bool) (out : Writer) (m : command) : Writer :=
  if m.Cmd.Action then
    (if desc then printDescription out [m.Cmd.Description, m.Cmd.Usage] else out) ++
      [cmd ++ " " ++ m.fullname h " " ++ "\n"]
  else out

/-- The action of `Commands`, with the values of `--relative` and
`--description`: the writer afterwards and the error returned. -/
def commandsAction (p : Proc) (app : App) (relative desc : Bool) (out : Writer) :
    Writer × Option Error :=
  match commandPrefix p app relative with
  | .error err => (out, some err)
  | .ok cmd =>
    ((lineate [] app.Commands Slice.nil).2.foldl
      (commandsStep (lineate [] app.Commands Slice.nil).1 cmd desc) out, none)

/-- The flags the `envvars` action collects: the global flags, then the flags
of every record in turn. -/
def collectFlags (app : App) (records : List command) : List Flag :=
  records.foldl (fun flags cmd => flags ++ cmd.Cmd.Flags) app.Flags

/-- The action of `EnvVars`: the writer afterwards and the error returned. -/
def envVarsAction (app : App) (out : Writer) : Writer × Option Error :=
  ((envvars (collectFlags app (lineate [] app.Commands Slice.nil).2)).foldl
    (fun o v => o ++ [v ++ "=" ++ "\n"]) out, none)

/-- The map handed to `t.Execute` by the `manual` action. -/
structure RenderData where
  Name : String
  Description : String
  GlobalFlags : List Flag
  Commands : List command
  heap : Heap

/-- The action of `Manual`; `parse` stands for the parsing of the template and
`execute` for `t.Execute`, which gives the buffer it has filled and its error. -/
def manualAction {τ : Type} (w : World) (parse : String → Except Error τ)
    (execute : τ → RenderData → String × Option Error) (app : App) (args : List String)
    (out : Writer) : Writer × Option Error :=
  match commandsTemplate w parse args with
  | .error err => (out, some err)
  | .ok t =>
    match execute t ⟨app.Name, app.Description, app.Flags,
        (lineate [] app.Commands Slice.nil).2, (lineate [] app.Commands Slice.nil).1⟩ with
    | (_, some err) => (out, some err)
    | (buffer, none) => (out ++ [buffer], none)

/-! ## Words of the specification about the actions -/

/-- Opening or reading `name` in the directory `p` fails with `e`: the open
fails with an error other than not-found, or the read of the opened file fails. -/
def FailsWith (w : World) (name p : String) (e : Error) : Prop :=
  (w.osOpen (w.Join p name) = .error e ∧ e.IsNotExist = false) ∨
    w.osOpen (w.Join p name) = .ok (.error e)

/-- The comment written before the line of a command in description mode: its
description if there is one, else its usage if there is one, else nothing. -/
def commentLines (c : Command) : List String :=
  if c.Description ≠ "" then ["# " ++ c.Description ++ "\n"]
  else if c.Usage ≠ "" then ["# " ++ c.Usage ++ "\n"]
  else []

mutual

/-- A command and all commands below it, hidden or not. -/
def allCmd : Command → List Command
  | .mk n u d a f act hid subs => .mk n u d a f act hid subs :: allRange subs

/-- All commands of a list of trees, hidden or not. -/
def allRange : List Command → List Command
  | [] => []
  | c :: rest => allCmd c ++ allRange rest

end

/-- All flags of an application: the global flags and the flags of every
command of the tree, hidden or not. -/
def allFlags (app : App) : List Flag :=
  app.Flags ++ (allRange app.Commands).flatMap Command.Flags

/-- The flags the specification means to list: the global flags and the flags
of the commands that are not hidden and have no hidden ancestor. -/
def visibleFlags (app : App) : List Flag :=
  app.Flags ++ (visibleRange app.Commands).flatMap Command.Flags

/-! ## Words of the specification about full names -/

/-- The names a full name is joined from: the names of the lineage, then the
own name. -/
def Record.path (r : Record) : List String :=
  r.Lineage.map Command.Name ++ [r.Cmd.Name]

mutual

/-- Below this command, sibling commands have pairwise distinct names. -/
def distinctCmd : Command → Bool
  | .mk _ _ _ _ _ _ _ subs => distinctRange subs

/-- The commands of the list have pairwise distinct names, and so have the
sibling commands below each of them. -/
def distinctRange : List Command → Bool
  | [] => true
  | c :: rest =>
    decide (c.Name ∉ rest.map Command.Name) && distinctCmd c && distinctRange rest

end

/-- Every record of `lineate(cmds, nil)` holds its ancestors as lineage: up to
order, the records are those of the pre-order traversal. -/
def Intact (cmds : List Command) : Prop :=
  ((lineate [] cmds Slice.nil).2.map (command.record (lineate [] cmds Slice.nil).1)).Perm
    (preorderRange [] cmds)

/-! ## Where the lineage stays intact -/

mutual

/-- The depth of the tree below a command, the command counted. -/
def depthCmd : Command → Nat
  | .mk _ _ _ _ _ _ _ subs => depthRange subs + 1

/-- The depth of a list of trees: 0 for no tree. -/
def depthRange : List Command → Nat
  | [] => 0
  | c :: rest => max (depthCmd c) (depthRange rest)

end

/-- The slice `s` lies within the written part of its array, and its array
exists when it has spare capacity. -/
def Valid (h : Heap) (s : Slice) : Prop :=
  s.len ≤ (h.getD s.array []).length ∧ (s.len < s.cap → s.array < h.length)

/-- The slice `t` is out of reach of the loop that runs with the lineage `s`:
it is empty, or it lies in an array allocated before, and when `s` has spare
capacity it is in another array or not longer than `s`. -/
def Outside (h : Heap) (s t : Slice) : Prop :=
  t.len = 0 ∨ (t.array < h.length ∧ (s.len < s.cap → t.array ≠ s.array ∨ t.len ≤ s.len))

/-- A lineage of length `len` and capacity `cap` can be extended over `k`
levels of the tree with a new array at each level but the last. -/
def Fresh : Nat → Nat → Nat → Prop
  | _, _, 0 => True
  | _, _, 1 => True
  | len, cap, k + 2 => ¬ (len < cap) ∧ Fresh (len + 1) (nextslicecap cap) (k + 1)

/-- What the loop of `lineate` leaves alone, whatever the tree. -/
def LoopFrame (cmds : List Command) : Prop :=
  ∀ (h : Heap) (s : Slice) (acc : List command), Valid h s →
    h.length ≤ (lineateRange h s acc cmds).1.length ∧
    Valid (lineateRange h s acc cmds).1 s ∧
    ∀ t, Outside h s t → t.elems (lineateRange h s acc cmds).1 = t.elems h

/-- What the loop of `lineate` returns for trees of depth at most `k` when the
lineage is fresh over `k` levels: records out of reach of the loop that sort
to the same list as the records it was given followed by those of the
pre-order traversal. -/
def LoopIntact (cmds : List Command) : Prop :=
  ∀ (k : Nat) (h : Heap) (s : Slice) (acc : List command), depthRange cmds ≤ k →
    Fresh s.len s.cap k → Valid h s → (∀ r ∈ acc, Outside h s r.Lineage) →
    (∀ r ∈ (lineateRange h s acc cmds).2, Outside (lineateRange h s acc cmds).1 s r.Lineage) ∧
    SliceStable recordLess
        ((lineateRange h s acc cmds).2.map (command.record (lineateRange h s acc cmds).1)) =
      SliceStable recordLess (acc.map (command.record h) ++ preorderRange (s.elems h) cmds)

/-! ## More example inputs -/

/-- Directory `A` holds `x.md`, opening it in `D` is denied, `B` holds it. -/
def exampleWorldDenied : World where
  Join := fun dir name => dir ++ "/" ++ name
  osOpen := fun path =>
    if path = "A/x.md" then .ok (.ok "from A")
    else if path = "B/x.md" then .ok (.ok "from B")
    else if path = "D/x.md" then .error (.other "permission denied")
    else .error (.notExist path)
  embedOpen := fun path =>
    if path = "templates/x.md" then .ok (.ok "embedded") else .error (.notExist path)

/-- The scenario of the specification: `a` (visible, action), `b` (hidden,
action), and the subcommand `c` of `a` (visible, action). -/
def exampleApp : App where
  Name := "P"
  Description := ""
  Flags := []
  Commands :=
    [.mk "a" "" "" [] [] true false [.mk "c" "prints stuff" "" [] [] true false []],
     .mk "b" "" "hidden one" [] [] true true []]

/-- A process whose executable resolves to `/bin/P`. -/
def exampleProc : Proc where
  Getwd := .ok "/home"
  Executable := .ok "/bin/P"
  Rel := fun _ _ => .ok "../bin/P"
  Abs := fun _ => .ok "/bin/P"

/-- The scenario of the specification for `envvars`: the global string flag
`foo`, and a command with the flags `today`, `tomorrow` and `yesterday`. -/
def exampleEnvApp : App where
  Name := "demo"
  Description := ""
  Flags := [⟨.StringFlag, ["foo"], ["FOO"], ""⟩]
  Commands :=
    [.mk "something" "" "" []
      [⟨.BoolFlag, ["today"], ["BARBAR"], ""⟩, ⟨.Int64Flag, ["tomorrow"], ["BAZBAZ"], ""⟩,
        ⟨.BoolFlag, ["yesterday"], [], ""⟩] true false []]

/-- An application whose command `admin` is hidden and declares `ADMIN`, with
the visible subcommand `sub` that declares `SUB`. -/
def exampleHiddenApp : App where
  Name := "demo"
  Description := ""
  Flags := [⟨.StringFlag, ["foo"], ["FOO"], ""⟩]
  Commands :=
    [.mk "admin" "" "" [] [⟨.StringFlag, ["admin"], ["ADMIN"], ""⟩] true true
      [.mk "sub" "" "" [] [⟨.BoolFlag, ["sub"], ["SUB"], ""⟩] true false []]]

/-- A tree of depth five: `r > s > t > {m > e, b}`. -/
def exampleEarly : List Command :=
  [exampleCommand "r" [exampleCommand "s" [exampleCommand "t"
    [exampleCommand "m" [exampleCommand "e" []], exampleCommand "b" []]]]]

/-- A template engine for the examples: executing the template `fail` stops
with an error after `partly` has gone into the buffer, and every other
template renders to its own text. -/
def exampleExecute (t : String) (_ : RenderData) : String × Option Error :=
  if t = "fail" then ("partly", some (.other "execute")) else (t, none)

/-- Two roots with one subcommand each: `a > bc` and `ab > c`. -/
def exampleAmbiguous : List Command :=
  [exampleCommand "a" [exampleCommand "bc" []], exampleCommand "ab" [exampleCommand "c" []]]

/-- Two roots, the first with two subcommands: `a > {b, c}` and `d`. -/
def exampleSmall : List Command :=
  [exampleCommand "a" [exampleCommand "b" [], exampleCommand "c" []], exampleCommand "d" []]

/-! ## Facts about strings and the stable sort -/

theorem stringLess_iff (a b : String) : stringLess a b = true ↔ a < b := by
  simp [stringLess, String.lt_iff_toList_lt]

theorem stringLess_eq_false_iff (a b : String) : stringLess a b = false ↔ b ≤ a := by
  rw [← not_lt, ← stringLess_iff]
  cases stringLess a b <;> simp

theorem insertStable_perm {α : Type} (less : α → α → Bool) (x : α) (l : List α) :
    (insertStable less x l).Perm (x :: l) := by
  induction l with
  | nil => exact List.Perm.refl _
  | cons y ys ih =>
    unfold insertStable
    split
    · exact (List.Perm.cons y ih).trans (List.Perm.swap x y ys)
    · exact List.Perm.refl _

theorem SliceStable_perm {α : Type} (less : α → α → Bool) (l : List α) :
    (SliceStable less l).Perm l := by
  induction l with
  | nil => exact List.Perm.refl _
  | cons x xs ih =>
    unfold SliceStable
    exact (insertStable_perm less x _).trans (List.Perm.cons x ih)

/-- Sorting by a key that is compared with `stringLess`. -/
theorem insertStable_sorted {α : Type} (key : α → String) (x : α) (l : List α)
    (hl : l.Pairwise (fun a b => key a ≤ key b)) :
    (insertStable (fun a b => stringLess (key a) (key b)) x l).Pairwise
      (fun a b => key a ≤ key b) := by
  induction l with
  | nil => simp [insertStable]
  | cons y ys ih =>
    rw [List.pairwise_cons] at hl
    unfold insertStable
    split
    · rename_i hlt
      rw [stringLess_iff] at hlt
      rw [List.pairwise_cons]
      refine ⟨?_, ih hl.2⟩
      intro z hz
      have hz2 := (insertStable_perm _ x ys).subset hz
      rw [List.mem_cons] at hz2
      rcases hz2 with rfl | hz2
      · exact le_of_lt hlt
      · exact hl.1 z hz2
    · rename_i hlt
      have hxy : key x ≤ key y := by
        rw [← stringLess_eq_false_iff]
        simpa using hlt
      rw [List.pairwise_cons]
      refine ⟨?_, List.pairwise_cons.mpr hl⟩
      intro z hz
      rw [List.mem_cons] at hz
      rcases hz with rfl | hz
      · exact hxy
      · exact le_trans hxy (hl.1 z hz)

theorem SliceStable_sorted {α : Type} (key : α → String) (l : List α) :
    (SliceStable (fun a b => stringLess (key a) (key b)) l).Pairwise
      (fun a b => key a ≤ key b) := by
  induction l with
  | nil => simp [SliceStable]
  | cons x xs ih =>
    unfold SliceStable
    exact insertStable_sorted key x _ ih

/-! ## Induction over command trees -/

/-- Induction over a command and its subcommand lists at once. -/
theorem Command.induct (P : Command → Prop) (Q : List Command → Prop)
    (hmk : ∀ n u d a f act hid subs, Q subs → P (.mk n u d a f act hid subs))
    (hnil : Q []) (hcons : ∀ c rest, P c → Q rest → Q (c :: rest)) :
    (∀ c, P c) ∧ (∀ cmds, Q cmds) :=
  ⟨fun c => @Command.rec P Q hmk hnil hcons c,
   fun cmds => @Command.rec_1 P Q hmk hnil hcons cmds⟩

/-- The loop body in terms of the recursive call of `lineate`, as in the source. -/
theorem lineateCmd_eq (h : Heap) (lineage : Slice) (commands : List command) (c : Command) :
    lineateCmd h lineage commands c =
      if c.Hidden then (h, commands)
      else
        ((lineate (appendSlice h lineage c).1 c.Subcommands (appendSlice h lineage c).2).1,
          (commands ++ [⟨c, lineage⟩]) ++
            (lineate (appendSlice h lineage c).1 c.Subcommands (appendSlice h lineage c).2).2) := by
  cases c with
  | mk n u d a f act hid subs =>
    cases hid <;> simp [lineateCmd, lineate, Command.Hidden, Command.Subcommands]

theorem lineateRange_nil (h : Heap) (lineage : Slice) (commands : List command) :
    lineateRange h lineage commands [] = (h, commands) := by
  simp [lineateRange]

theorem lineateRange_cons (h : Heap) (lineage : Slice) (commands : List command)
    (c : Command) (rest : List Command) :
    lineateRange h lineage commands (c :: rest) =
      lineateRange (lineateCmd h lineage commands c).1 lineage
        (lineateCmd h lineage commands c).2 rest := by
  simp [lineateRange]

theorem lineate_eq (h : Heap) (cmds : List Command) (lineage : Slice) :
    lineate h cmds lineage =
      ((lineateRange h lineage [] cmds).1,
        SliceStable (fullnameLess (lineateRange h lineage [] cmds).1)
          (lineateRange h lineage [] cmds).2) := by
  simp [lineate]

/-! ## Hidden commands never enter the heap or the records -/

theorem heapVisible_getD (h : Heap) (hv : HeapVisible h) (i : Nat) :
    ∀ c ∈ h.getD i [], c.Hidden = false := by
  intro c hc
  by_cases hi : i < h.length
  · rw [List.getD_eq_getElem h [] hi] at hc
    exact hv _ (List.getElem_mem hi) c hc
  · rw [List.getD_eq_default h [] (Nat.le_of_not_lt hi)] at hc
    cases hc

theorem heapVisible_elems (h : Heap) (hv : HeapVisible h) (s : Slice) :
    ∀ c ∈ s.elems h, c.Hidden = false := by
  intro c hc
  exact heapVisible_getD h hv s.array c (List.mem_of_mem_take hc)

theorem appendSlice_heapVisible (h : Heap) (s : Slice) (x : Command)
    (hv : HeapVisible h) (hx : x.Hidden = false) :
    HeapVisible (appendSlice h s x).1 := by
  unfold appendSlice
  split
  · intro arr harr c hc
    rcases List.mem_or_eq_of_mem_set harr with harr | rfl
    · exact hv arr harr c hc
    · rw [List.mem_append, List.mem_cons] at hc
      rcases hc with hc | rfl | hc
      · exact heapVisible_getD h hv s.array c (List.mem_of_mem_take hc)
      · exact hx
      · exact heapVisible_getD h hv s.array c (List.mem_of_mem_drop hc)
  · intro arr harr c hc
    rw [List.mem_append, List.mem_singleton] at harr
    rcases harr with harr | rfl
    · exact hv arr harr c hc
    · rw [List.mem_append, List.mem_singleton] at hc
      rcases hc with hc | rfl
      · exact heapVisible_getD h hv s.array c (List.mem_of_mem_take hc)
      · exact hx

theorem Reaches.of_cons {c : Command} {rest anc : List Command} {x : Command}
    (hr : Reaches rest anc x) : Reaches (c :: rest) anc x := by
  cases hr with
  | root hm hh => exact Reaches.root (List.mem_cons_of_mem _ hm) hh
  | sub hm hh hr2 => exact Reaches.sub (List.mem_cons_of_mem _ hm) hh hr2

theorem Reaches.of_head {c : Command} {rest anc : List Command} {x : Command}
    (hr : Reaches [c] anc x) : Reaches (c :: rest) anc x := by
  cases hr with
  | root hm hh =>
    rw [List.mem_singleton] at hm
    exact Reaches.root (hm ▸ List.mem_cons_self _ _) hh
  | sub hm hh hr2 =>
    rw [List.mem_singleton] at hm
    subst hm
    exact Reaches.sub (List.mem_cons_self _ _) hh hr2

theorem lineate_visible_aux :
    (∀ c : Command, LoopVisible [c]) ∧ (∀ cmds : List Command, LoopVisible cmds) := by
  apply Command.induct
  · intro n u d a f act hid subs ih h lineage commands hv
    rw [lineateRange_cons, lineateRange_nil, lineateCmd_eq]
    cases hid with
    | true =>
      simp only [Command.Hidden, if_true]
      exact ⟨hv, fun r hr => Or.inl hr⟩
    | false =>
      have hx : (Command.mk n u d a f act false subs).Hidden = false := rfl
      have hv1 := appendSlice_heapVisible h lineage _ hv hx
      have ih1 := ih (appendSlice h lineage (Command.mk n u d a f act false subs)).1
        (appendSlice h lineage (Command.mk n u d a f act false subs)).2 [] hv1
      simp only [Command.Hidden, Bool.false_eq_true, if_false, lineate_eq, Command.Subcommands]
      refine ⟨ih1.1, ?_⟩
      intro r hr
      rw [List.mem_append, List.mem_append, List.mem_singleton] at hr
      rcases hr with (hr | rfl) | hr
      · exact Or.inl hr
      · exact Or.inr ⟨rfl, [], Reaches.root (List.mem_singleton_self _) rfl⟩
      · have hr2 := (SliceStable_perm _ _).subset hr
        rcases ih1.2 r hr2 with hr3 | ⟨hh, anc, hreach⟩
        · cases hr3
        · exact Or.inr ⟨hh, _ :: anc, Reaches.sub (List.mem_singleton_self _) rfl hreach⟩
  · intro h lineage commands hv
    rw [lineateRange_nil]
    exact ⟨hv, fun r hr => Or.inl hr⟩
  · intro c rest ihc ihrest h lineage commands hv
    rw [lineateRange_cons]
    have h1 := ihc h lineage commands hv
    rw [lineateRange_cons, lineateRange_nil] at h1
    have h2 := ihrest (lineateCmd h lineage commands c).1 lineage
      (lineateCmd h lineage commands c).2 h1.1
    refine ⟨h2.1, ?_⟩
    intro r hr
    rcases h2.2 r hr with hr2 | ⟨hh, anc, hreach⟩
    · rcases h1.2 r hr2 with hr3 | ⟨hh, anc, hreach⟩
      · exact Or.inl hr3
      · exact Or.inr ⟨hh, anc, hreach.of_head⟩
    · exact Or.inr ⟨hh, anc, hreach.of_cons⟩

/-! ## Order and number of the records -/

/-- C3: the records of `lineate(cmds, nil)` are in non-decreasing order of
`fullname("")`: of any two records the earlier one has the smaller or equal
name. -/
theorem lineate_sorted_by_fullname (cmds : List Command) :
    (lineate [] cmds Slice.nil).2.Pairwise (fun a b =>
      a.fullname (lineate [] cmds Slice.nil).1 "" ≤
        b.fullname (lineate [] cmds Slice.nil).1 "") := by
  rw [lineate_eq]
  exact SliceStable_sorted
    (fun c : command => c.fullname (lineateRange [] Slice.nil [] cmds).1 "") _

theorem visibleRange_single (c : Command) : visibleRange [c] = visibleCmd c := by
  simp [visibleRange]

theorem lineateRange_cmd_perm_aux :
    (∀ c : Command, ∀ (h : Heap) (lineage : Slice) (commands : List command),
      ((lineateRange h lineage commands [c]).2.map command.Cmd).Perm
        (commands.map command.Cmd ++ visibleRange [c])) ∧
    (∀ cmds : List Command, ∀ (h : Heap) (lineage : Slice) (commands : List command),
      ((lineateRange h lineage commands cmds).2.map command.Cmd).Perm
        (commands.map command.Cmd ++ visibleRange cmds)) := by
  apply Command.induct
  · intro n u d a f act hid subs ih h lineage commands
    rw [lineateRange_cons, lineateRange_nil, lineateCmd_eq, visibleRange_single]
    cases hid with
    | true => simp [Command.Hidden, visibleCmd]
    | false =>
      have ih1 := ih (appendSlice h lineage (Command.mk n u d a f act false subs)).1
        (appendSlice h lineage (Command.mk n u d a f act false subs)).2 []
      simp only [Command.Hidden, Bool.false_eq_true, if_false, lineate_eq, Command.Subcommands,
        visibleCmd, List.map_append, List.map_cons, List.map_nil, List.append_assoc,
        List.singleton_append]
      simp only [List.map_nil, List.nil_append] at ih1
      refine List.Perm.append_left _ (List.Perm.cons _ ?_)
      exact ((SliceStable_perm _ _).map command.Cmd).trans ih1
  · intro h lineage commands
    simp [lineateRange_nil, visibleRange]
  · intro c rest ihc ihrest h lineage commands
    rw [lineateRange_cons]
    have h1 := ihc h lineage commands
    rw [lineateRange_cons, lineateRange_nil, visibleRange_single] at h1
    have h2 := ihrest (lineateCmd h lineage commands c).1 lineage
      (lineateCmd h lineage commands c).2
    refine h2.trans ?_
    have h3 : visibleRange (c :: rest) = visibleCmd c ++ visibleRange rest := by
      simp [visibleRange]
    rw [h3, ← List.append_assoc]
    exact List.Perm.append_right _ h1

theorem lineate_cmd_perm (cmds : List Command) :
    ((lineate [] cmds Slice.nil).2.map command.Cmd).Perm (visibleRange cmds) := by
  rw [lineate_eq]
  have h := lineateRange_cmd_perm_aux.2 cmds [] Slice.nil []
  simp only [List.map_nil, List.nil_append] at h
  exact ((SliceStable_perm _ _).map command.Cmd).trans h

/-- C1: no record of `lineate(cmds, nil)` holds a hidden command, none has a
hidden command in its lineage, and each was reached from the roots through
ancestors none of which is hidden; the commands of the records are, up to
order, the commands outside every hidden subtree, so a hidden command and all
its descendants are absent. -/
theorem lineate_excludes_hidden (cmds : List Command) :
    (∀ r ∈ (lineate [] cmds Slice.nil).2,
      r.Cmd.Hidden = false ∧
      (∀ a ∈ r.Lineage.elems (lineate [] cmds Slice.nil).1, a.Hidden = false) ∧
      ∃ anc, Reaches cmds anc r.Cmd) ∧
    ((lineate [] cmds Slice.nil).2.map command.Cmd).Perm (visibleRange cmds) := by
  refine ⟨?_, lineate_cmd_perm cmds⟩
  intro r hr
  have hv0 : HeapVisible [] := by
    intro arr harr
    cases harr
  have hloop := lineate_visible_aux.2 cmds [] Slice.nil [] hv0
  rw [lineate_eq] at hr ⊢
  have hr2 := (SliceStable_perm _ _).subset hr
  rcases hloop.2 r hr2 with hr3 | ⟨hh, anc, hreach⟩
  · cases hr3
  · exact ⟨hh, heapVisible_elems _ hloop.1 _, anc, hreach⟩

theorem visibleRange_all_hidden (cmds : List Command) (hh : ∀ c ∈ cmds, c.Hidden = true) :
    visibleRange cmds = [] := by
  induction cmds with
  | nil => simp [visibleRange]
  | cons c rest ih =>
    have h3 : visibleRange (c :: rest) = visibleCmd c ++ visibleRange rest := by
      simp [visibleRange]
    rw [h3, ih (fun x hx => hh x (List.mem_cons_of_mem _ hx))]
    have hc := hh c (List.mem_cons_self _ _)
    cases c with
    | mk n u d a f act hid subs =>
      simp only [Command.Hidden] at hc
      subst hc
      simp [visibleCmd]

/-- C5: the commands of the records of `lineate(cmds, nil)` are, up to order,
the visible commands without hidden ancestor, each once, so there are as many
records as such commands; one visible root without subcommands gives one
record, and roots that are all hidden give none. Aliases play no part. -/
theorem lineate_each_visible_once (cmds : List Command) :
    ((lineate [] cmds Slice.nil).2.map command.Cmd).Perm (visibleRange cmds) ∧
    (lineate [] cmds Slice.nil).2.length = (visibleRange cmds).length ∧
    (∀ n u d a f act, (lineate [] [Command.mk n u d a f act false []] Slice.nil).2.map
        command.Cmd = [Command.mk n u d a f act false []]) ∧
    ((∀ c ∈ cmds, c.Hidden = true) → (lineate [] cmds Slice.nil).2 = []) := by
  refine ⟨lineate_cmd_perm cmds, ?_, ?_, ?_⟩
  · have h := (lineate_cmd_perm cmds).length_eq
    simpa using h
  · intro n u d a f act
    have h := lineate_cmd_perm [Command.mk n u d a f act false []]
    have hv : visibleRange [Command.mk n u d a f act false []] =
        [Command.mk n u d a f act false []] := by
      simp [visibleRange, visibleCmd]
    rw [hv] at h
    exact List.perm_singleton.mp h
  · intro hh
    have h := lineate_cmd_perm cmds
    rw [visibleRange_all_hidden cmds hh] at h
    have h2 := List.Perm.eq_nil h
    exact List.map_eq_nil_iff.mp h2

/-- C5 at a concrete tree whose only root is hidden and has a visible child. -/
theorem lineate_each_visible_once_witness :
    (lineate [] [Command.mk "h" "" "" ["x", "y"] [] true true [exampleCommand "c" []]]
      Slice.nil).2 = [] :=
  (lineate_each_visible_once
    [Command.mk "h" "" "" ["x", "y"] [] true true [exampleCommand "c" []]]).2.2.2
    (by
      intro c hc
      rw [List.mem_singleton] at hc
      subst hc
      rfl)

/-! ## envvars -/

theorem setVar_nodup (vars : List String) (env : String) (hn : vars.Nodup) :
    (setVar vars env).Nodup := by
  unfold setVar
  split
  · exact hn
  · rename_i hmem
    rw [List.nodup_append]
    refine ⟨hn, List.nodup_singleton env, ?_⟩
    intro x hx hx2
    rw [List.mem_singleton] at hx2
    exact hmem (hx2 ▸ hx)

theorem mem_setVar (vars : List String) (env x : String) :
    x ∈ setVar vars env ↔ x ∈ vars ∨ x = env := by
  unfold setVar
  split
  · rename_i hmem
    constructor
    · exact Or.inl
    · rintro (h | rfl)
      · exact h
      · exact hmem
  · simp

theorem foldl_setVar_nodup (envs : List String) :
    ∀ vars : List String, vars.Nodup → (envs.foldl setVar vars).Nodup := by
  induction envs with
  | nil => exact fun _ hn => hn
  | cons e es ih => exact fun vars hn => ih _ (setVar_nodup vars e hn)

theorem mem_foldl_setVar (envs : List String) (x : String) :
    ∀ vars : List String, x ∈ envs.foldl setVar vars ↔ x ∈ vars ∨ x ∈ envs := by
  induction envs with
  | nil => simp
  | cons e es ih =>
    intro vars
    rw [List.foldl_cons, ih, mem_setVar, List.mem_cons]
    tauto

theorem envvarsFlag_nodup (vars : List String) (flag : Flag) (hn : vars.Nodup) :
    (envvarsFlag vars flag).Nodup := by
  unfold envvarsFlag
  split
  · exact foldl_setVar_nodup _ _ hn
  · exact foldl_setVar_nodup _ _ hn
  · exact foldl_setVar_nodup _ _ hn
  · exact hn

theorem mem_envvarsFlag (vars : List String) (flag : Flag) (x : String) :
    x ∈ envvarsFlag vars flag ↔ x ∈ vars ∨ (scanned flag.kind = true ∧ x ∈ flag.EnvVars) := by
  unfold envvarsFlag
  cases hk : flag.kind <;> simp [scanned, mem_foldl_setVar]

theorem foldl_envvarsFlag_nodup (flags : List Flag) :
    ∀ vars : List String, vars.Nodup → (flags.foldl envvarsFlag vars).Nodup := by
  induction flags with
  | nil => exact fun _ hn => hn
  | cons f fs ih => exact fun vars hn => ih _ (envvarsFlag_nodup vars f hn)

theorem mem_foldl_envvarsFlag (flags : List Flag) (x : String) :
    ∀ vars : List String, x ∈ flags.foldl envvarsFlag vars ↔
      x ∈ vars ∨ ∃ f ∈ flags, scanned f.kind = true ∧ x ∈ f.EnvVars := by
  induction flags with
  | nil => simp
  | cons f fs ih =>
    intro vars
    rw [List.foldl_cons, ih, mem_envvarsFlag]
    simp only [List.mem_cons, exists_eq_or_imp]
    tauto

/-- A name is in `envvars(flags)` exactly when a string, boolean or int64 flag
of the list declares it. -/
theorem mem_envvars (flags : List Flag) (x : String) :
    x ∈ envvars flags ↔ ∃ f ∈ flags, scanned f.kind = true ∧ x ∈ f.EnvVars := by
  unfold envvars sortStrings
  rw [(SliceStable_perm _ _).mem_iff, mem_foldl_envvarsFlag]
  simp

theorem sortStrings_sorted (k : List String) :
    (sortStrings k).Pairwise (fun a b => a ≤ b) :=
  SliceStable_sorted (fun s : String => s) k

theorem envvars_nodup (flags : List Flag) : (envvars flags).Nodup :=
  (SliceStable_perm _ _).nodup_iff.mpr (foldl_envvarsFlag_nodup flags [] List.nodup_nil)

/-- The result of `envvars` is fixed by the set of names collected: the order
in which the flags come, or in which the keys of the map are ranged over, does
not matter. -/
theorem envvars_eq_of_same_names (flags : List Flag) (k : List String)
    (hk : k.Pairwise (fun a b => a ≤ b)) (hn : k.Nodup)
    (hmem : ∀ x, x ∈ k ↔ ∃ f ∈ flags, scanned f.kind = true ∧ x ∈ f.EnvVars) :
    envvars flags = k := by
  have hp : (envvars flags).Perm k := by
    rw [List.perm_ext_iff_of_nodup (envvars_nodup flags) hn]
    intro x
    rw [mem_envvars, hmem]
  exact List.eq_of_perm_of_sorted hp (sortStrings_sorted _) hk

theorem envvars_perm (flags flags1 : List Flag) (hp : flags.Perm flags1) :
    envvars flags = envvars flags1 := by
  apply envvars_eq_of_same_names flags (envvars flags1) (sortStrings_sorted _)
    (envvars_nodup flags1)
  intro x
  rw [mem_envvars]
  constructor
  · rintro ⟨f, hf, h⟩
    exact ⟨f, hp.symm.subset hf, h⟩
  · rintro ⟨f, hf, h⟩
    exact ⟨f, hp.subset hf, h⟩

/-- C6: the list `envvars(flags)` is strictly ascending, so it is sorted and
holds no name twice, for every list of flags. -/
theorem envvars_strictly_ascending (flags : List Flag) :
    (envvars flags).Pairwise (fun a b => a < b) := by
  have hle : (envvars flags).Pairwise (fun a b => a ≤ b) := sortStrings_sorted _
  exact (hle.and (envvars_nodup flags)).imp (fun h => lt_of_le_of_ne h.1 h.2)

/-- C7: a `cli.IntFlag` declares the environment variable `COUNT`, and the type
switch of `envvars` has no case for it: `envvars` returns nothing for the
flag, so `COUNT` is declared and not returned, and the `envvars` action of an
application with this global flag writes no line. -/
theorem envvars_skips_int_flag :
    envvars [⟨.IntFlag, ["count"], ["COUNT"], "how many"⟩] = [] ∧
    ¬ ("COUNT" ∈ envvars [⟨.IntFlag, ["count"], ["COUNT"], "how many"⟩] ↔
      ∃ f ∈ [(⟨.IntFlag, ["count"], ["COUNT"], "how many"⟩ : Flag)], "COUNT" ∈ f.EnvVars) ∧
    envVarsAction ⟨"demo", "", [⟨.IntFlag, ["count"], ["COUNT"], "how many"⟩], []⟩ [] =
      ([], none) := by
  decide

/-- What the type switch of `envvars` does: a name is returned exactly when a
string, boolean or int64 flag of the list declares it; flags of the other types
are passed over. -/
theorem envvars_mem_iff_scanned_flag (flags : List Flag) (x : String) :
    x ∈ envvars flags ↔
      ∃ f ∈ flags,
        (f.kind = .StringFlag ∨ f.kind = .BoolFlag ∨ f.kind = .Int64Flag) ∧ x ∈ f.EnvVars := by
  rw [mem_envvars]
  constructor
  · rintro ⟨f, hf, hk, hx⟩
    refine ⟨f, hf, ?_, hx⟩
    revert hk
    cases f.kind <;> simp [scanned]
  · rintro ⟨f, hf, hk, hx⟩
    refine ⟨f, hf, ?_, hx⟩
    rcases hk with hk | hk | hk <;> simp [hk, scanned]

/-! ## The lineage slice is shared between siblings -/

/-- C2: in the tree `a > b > c > {d > e, x}` the record of `e` comes back with
the lineage `a, b, c, x`, so its full name is `a b c x e`; its ancestors are
`a, b, c, d`. -/
theorem lineate_lineage_overwritten :
    (lineate [] exampleDeep Slice.nil).2.map
        (fun r => (r.Cmd.Name,
          (r.Lineage.elems (lineate [] exampleDeep Slice.nil).1).map Command.Name)) =
      [("a", []), ("b", ["a"]), ("c", ["a", "b"]), ("d", ["a", "b", "c"]),
        ("x", ["a", "b", "c"]), ("e", ["a", "b", "c", "x"])] ∧
    (lineate [] exampleDeep Slice.nil).2.map
        (fun r => r.fullname (lineate [] exampleDeep Slice.nil).1 " ") =
      ["a", "a b", "a b c", "a b c d", "a b c x", "a b c x e"] ∧
    (preorderRange [] exampleDeep).map (fun r => r.fullname " ") =
      ["a", "a b", "a b c", "a b c d", "a b c d e", "a b c x"] := by
  decide

/-- C4: in the tree `a > b > c > {d > {qa > s, as}, dq}` the traversal finds `s`
before `as`; both come back with the sort key `abcdqas`, `as` first, and `dq`
comes back before both. The pre-order traversal sorted once by full name is
`a, b, c, d, as, dq, qa, s`: the two lists differ. -/
theorem lineate_differs_from_single_sort :
    (lineate [] exampleTies Slice.nil).2.map
        (fun r => (r.Cmd.Name, r.fullname (lineate [] exampleTies Slice.nil).1 "")) =
      [("a", "a"), ("b", "ab"), ("c", "abc"), ("d", "abcd"), ("dq", "abcdq"),
        ("as", "abcdqas"), ("s", "abcdqas"), ("qa", "abcdqqa")] ∧
    (preorderRange [] exampleTies).map (fun r => r.Cmd.Name) =
      ["a", "b", "c", "d", "qa", "s", "as", "dq"] ∧
    (lineateSpec exampleTies).map (fun r => (r.Cmd.Name, r.fullname "")) =
      [("a", "a"), ("b", "ab"), ("c", "abc"), ("d", "abcd"), ("as", "abcdas"),
        ("dq", "abcdq"), ("qa", "abcdqa"), ("s", "abcdqas")] ∧
    (lineate [] exampleTies Slice.nil).2.map
        (command.record (lineate [] exampleTies Slice.nil).1) ≠
      lineateSpec exampleTies := by
  refine ⟨by decide, by decide, by decide, ?_⟩
  intro heq
  have hn := congrArg (List.map (fun r : Record => r.Cmd.Name)) heq
  revert hn
  rw [List.map_map]
  decide

/-! ## Fragment lookup -/

theorem readLoop_missing (w : World) (name p : String) (ps : List String)
    (contents : Option String) (hm : Missing w name p) :
    readLoop w name (p :: ps) contents = readLoop w name ps contents := by
  obtain ⟨e, he, hne⟩ := hm
  simp [readLoop, he, hne]

theorem readLoop_holds (w : World) (name p c : String) (ps : List String)
    (contents : Option String) (hh : Holds w name p c) :
    readLoop w name (p :: ps) contents = readLoop w name ps (some c) := by
  unfold Holds at hh
  simp [readLoop, hh]

theorem readLoop_all_missing (w : World) (name : String) (paths : List String)
    (contents : Option String) (hall : ∀ p ∈ paths, Missing w name p) :
    readLoop w name paths contents = .ok contents := by
  induction paths with
  | nil => simp [readLoop]
  | cons p ps ih =>
    rw [readLoop_missing w name p ps contents (hall p (List.mem_cons_self _ _))]
    exact ih (fun q hq => hall q (List.mem_cons_of_mem _ hq))

theorem readLoop_prefix (w : World) (name : String) (pre rest : List String)
    (hpre : ∀ p ∈ pre, Missing w name p ∨ ∃ s, Holds w name p s) :
    ∀ contents : Option String, ∃ contents1 : Option String,
      readLoop w name (pre ++ rest) contents = readLoop w name rest contents1 := by
  induction pre with
  | nil => exact fun contents => ⟨contents, rfl⟩
  | cons p ps ih =>
    intro contents
    have ih1 := ih (fun q hq => hpre q (List.mem_cons_of_mem _ hq))
    rcases hpre p (List.mem_cons_self _ _) with hm | ⟨s, hs⟩
    · rw [List.cons_append, readLoop_missing w name p _ contents hm]
      exact ih1 contents
    · rw [List.cons_append, readLoop_holds w name p s _ contents hs]
      exact ih1 (some s)

theorem readLoop_last (w : World) (name : String) (pre post : List String) (d c : String)
    (hpre : ∀ p ∈ pre, Missing w name p ∨ ∃ s, Holds w name p s)
    (hd : Holds w name d c) (hpost : ∀ p ∈ post, Missing w name p) :
    readLoop w name (pre ++ d :: post) none = .ok (some c) := by
  obtain ⟨contents1, h1⟩ := readLoop_prefix w name pre (d :: post) hpre none
  rw [h1, readLoop_holds w name d c post contents1 hd]
  exact readLoop_all_missing w name post (some c) hpost

/-- C8: when every directory either holds the file or reports it missing, and
`d` is the last directory that holds it, `read` returns the content found in
`d`, whatever the embedded file set would answer. -/
theorem read_last_directory_wins (w : World) (name : String) (pre post : List String)
    (d c : String)
    (hpre : ∀ p ∈ pre, Missing w name p ∨ ∃ s, Holds w name p s)
    (hd : Holds w name d c) (hpost : ∀ p ∈ post, Missing w name p) :
    read w name (pre ++ d :: post) = .ok c ∧
    ∀ emb : String → Except Error File,
      read { w with embedOpen := emb } name (pre ++ d :: post) = .ok c := by
  constructor
  · unfold read
    rw [readLoop_last w name pre post d c hpre hd hpost]
  · intro emb
    unfold read
    rw [readLoop_last { w with embedOpen := emb } name pre post d c hpre hd hpost]

/-- C8 for the directories `A`, `B`, both holding `x.md`, and `C`, which does
not: the content of `B`. -/
theorem read_last_directory_wins_witness :
    read exampleWorld "x.md" ["A", "B", "C"] = .ok "from B" :=
  (read_last_directory_wins exampleWorld "x.md" ["A"] ["C"] "B" "from B"
    (by
      intro p hp
      rw [List.mem_singleton] at hp
      subst hp
      exact Or.inr ⟨"from A", rfl⟩)
    rfl
    (by
      intro p hp
      rw [List.mem_singleton] at hp
      subst hp
      exact ⟨.notExist "C/x.md", rfl, rfl⟩)).1

theorem read_all_missing_error (w : World) (name : String) (paths : List String) (e : Error)
    (hall : ∀ p ∈ paths, Missing w name p)
    (he : w.embedOpen (w.Join "templates" name) = .error e) :
    read w name paths = .error e := by
  unfold read
  rw [readLoop_all_missing w name paths none hall]
  simp [he]

/-- C9: when every directory reports the file missing, `read` returns the
embedded content of `templates/<name>` if there is one and the not-found error
of the embedded file set otherwise; `commandsTemplate` then fails with that
error when `_commands.md` is nowhere. -/
theorem read_falls_back_to_embedded (w : World) (name : String) (paths : List String)
    (hall : ∀ p ∈ paths, Missing w name p) :
    (∀ c, w.embedOpen (w.Join "templates" name) = .ok (.ok c) → read w name paths = .ok c) ∧
    (∀ e, w.embedOpen (w.Join "templates" name) = .error e → e.IsNotExist = true →
      read w name paths = .error e) ∧
    (∀ (τ : Type) (parse : String → Except Error τ) (e : Error), name = "_commands.md" →
      w.embedOpen (w.Join "templates" "_commands.md") = .error e → e.IsNotExist = true →
      commandsTemplate w parse paths = .error e) := by
  refine ⟨?_, ?_, ?_⟩
  · intro c hc
    unfold read
    rw [readLoop_all_missing w name paths none hall]
    simp [hc]
  · intro e he _
    exact read_all_missing_error w name paths e hall he
  · intro τ parse e hname he _
    subst hname
    unfold commandsTemplate
    rw [read_all_missing_error w "_commands.md" paths e hall he]

/-- C9 with no directory at all: the embedded `_commands.md` is returned, and a
fragment that is not embedded gives the not-found error. -/
theorem read_falls_back_to_embedded_witness :
    read exampleWorld "_commands.md" [] = .ok "embedded" ∧
    read exampleWorld "y.md" ["A", "B"] = .error (.notExist "templates/y.md") :=
  ⟨(read_falls_back_to_embedded exampleWorld "_commands.md" []
      (by
        intro p hp
        cases hp)).1 "embedded" rfl,
   (read_falls_back_to_embedded exampleWorld "y.md" ["A", "B"]
      (by
        intro p hp
        rw [List.mem_cons, List.mem_singleton] at hp
        rcases hp with rfl | rfl
        · exact ⟨.notExist "A/y.md", rfl, rfl⟩
        · exact ⟨.notExist "B/y.md", rfl, rfl⟩)).2.1 (.notExist "templates/y.md") rfl rfl⟩

/-- C10: the template function `partial` returns the empty string without error
when the fragment is in no directory and not embedded, returns what `read`
returns when `read` succeeds, and every error it returns is an error of `read`
other than not-found. -/
theorem partial_missing_fragment_is_empty (w : World) (paths : List String) (fn : String) :
    ((∀ p ∈ paths, Missing w (fn ++ ".md") p) →
      ∀ e, w.embedOpen (w.Join "templates" (fn ++ ".md")) = .error e → e.IsNotExist = true →
        partialFunc w paths fn = .ok "") ∧
    (∀ s, read w (fn ++ ".md") paths = .ok s → partialFunc w paths fn = .ok s) ∧
    (∀ e, partialFunc w paths fn = .error e →
      read w (fn ++ ".md") paths = .error e ∧ e.IsNotExist = false) := by
  refine ⟨?_, ?_, ?_⟩
  · intro hall e he hne
    have hr := read_all_missing_error w (fn ++ ".md") paths e hall he
    unfold partialFunc
    rw [hr]
    simp [hne]
  · intro s hs
    unfold partialFunc
    rw [hs]
  · intro e he
    unfold partialFunc at he
    cases hr : read w (fn ++ ".md") paths with
    | error err =>
      rw [hr] at he
      cases hne : err.IsNotExist with
      | true => simp [hne] at he
      | false =>
        simp [hne] at he
        subst he
        exact ⟨rfl, hne⟩
    | ok s =>
      rw [hr] at he
      simp at he

/-- C10 for the fragment `y`, which is in neither `A` nor `B` and not embedded. -/
theorem partial_missing_fragment_is_empty_witness :
    partialFunc exampleWorld ["A", "B"] "y" = .ok "" :=
  (partial_missing_fragment_is_empty exampleWorld ["A", "B"] "y").1
    (by
      intro p hp
      rw [List.mem_cons, List.mem_singleton] at hp
      rcases hp with rfl | rfl
      · exact ⟨.notExist "A/y.md", rfl, rfl⟩
      · exact ⟨.notExist "B/y.md", rfl, rfl⟩)
    (.notExist "templates/y.md") rfl rfl

/-! ## Errors of the fragment lookup -/

theorem readLoop_fails (w : World) (name d : String) (e : Error) (post : List String)
    (contents : Option String) (hd : FailsWith w name d e) :
    readLoop w name (d :: post) contents = .error e := by
  rcases hd with ⟨ho, hne⟩ | ho
  · simp [readLoop, ho, hne]
  · simp [readLoop, ho]

theorem read_first_failure (w : World) (name : String) (pre post : List String) (d : String)
    (e : Error) (hpre : ∀ p ∈ pre, Missing w name p ∨ ∃ s, Holds w name p s)
    (hd : FailsWith w name d e) :
    read w name (pre ++ d :: post) = .error e := by
  obtain ⟨contents1, h1⟩ := readLoop_prefix w name pre (d :: post) hpre none
  unfold read
  rw [h1, readLoop_fails w name d e post contents1 hd]

/-- C11: when the directories before `d` hold the file or report it missing and
opening the file in `d` fails with an error other than not-found, or reading it
there fails, `read` returns that error and no content, whatever the later
directories and the embedded file set hold; `partial` returns the error too
when it is not a not-found error. -/
theorem read_first_io_error (w : World) (name : String) (pre post : List String) (d : String)
    (e : Error) (hpre : ∀ p ∈ pre, Missing w name p ∨ ∃ s, Holds w name p s)
    (hd : FailsWith w name d e) :
    read w name (pre ++ d :: post) = .error e ∧
    (∀ emb : String → Except Error File,
      read { w with embedOpen := emb } name (pre ++ d :: post) = .error e) ∧
    (∀ fn : String, name = fn ++ ".md" → e.IsNotExist = false →
      partialFunc w (pre ++ d :: post) fn = .error e) := by
  refine ⟨read_first_failure w name pre post d e hpre hd, ?_, ?_⟩
  · intro emb
    exact read_first_failure { w with embedOpen := emb } name pre post d e hpre hd
  · intro fn hname hne
    subst hname
    unfold partialFunc
    rw [read_first_failure w (fn ++ ".md") pre post d e hpre hd]
    simp [hne]

/-- C11 for the directories `A`, `D`, `B`: `A` and `B` hold `x.md`, which is
also embedded, and opening it in `D` is denied. -/
theorem read_first_io_error_witness :
    read exampleWorldDenied "x.md" ["A", "D", "B"] = .error (.other "permission denied") ∧
    partialFunc exampleWorldDenied ["A", "D", "B"] "x" = .error (.other "permission denied") :=
  ⟨(read_first_io_error exampleWorldDenied "x.md" ["A"] ["B"] "D" (.other "permission denied")
      (by
        intro p hp
        rw [List.mem_singleton] at hp
        subst hp
        exact Or.inr ⟨"from A", rfl⟩)
      (Or.inl ⟨rfl, rfl⟩)).1,
   (read_first_io_error exampleWorldDenied "x.md" ["A"] ["B"] "D" (.other "permission denied")
      (by
        intro p hp
        rw [List.mem_singleton] at hp
        subst hp
        exact Or.inr ⟨"from A", rfl⟩)
      (Or.inl ⟨rfl, rfl⟩)).2.2 "x" rfl rfl⟩

/-! ## The commands action -/

theorem printDescription_eq (out : Writer) (l : List String) :
    printDescription out l = out ++ printDescription [] l := by
  induction l with
  | nil => simp [printDescription]
  | cons x xs ih =>
    unfold printDescription
    split
    · simp
    · exact ih

theorem printDescription_pair (c : Command) :
    printDescription [] [c.Description, c.Usage] = commentLines c := by
  unfold commentLines
  by_cases hd : c.Description = ""
  · by_cases hu : c.Usage = ""
    · simp [printDescription, hd, hu]
    · simp [printDescription, hd, hu]
  · simp [printDescription, hd]

/-- The writes of the `commands` action for one record. -/
theorem commandsStep_eq (h : Heap) (cmd : String) (desc : Bool) (out : Writer) (m : command) :
    commandsStep h cmd desc out m =
      out ++ (if m.Cmd.Action = true then
        (if desc = true then commentLines m.Cmd else []) ++
          [cmd ++ " " ++ m.fullname h " " ++ "\n"]
        else []) := by
  unfold commandsStep
  by_cases ha : m.Cmd.Action = true
  · cases desc
    · simp [ha]
    · simp only [ha, if_true]
      rw [printDescription_eq, printDescription_pair, List.append_assoc]
  · simp [ha]

theorem foldl_commandsStep (h : Heap) (cmd : String) (desc : Bool) (l : List command) :
    ∀ out : Writer, l.foldl (commandsStep h cmd desc) out =
      out ++ l.flatMap (fun m => if m.Cmd.Action = true then
        (if desc = true then commentLines m.Cmd else []) ++
          [cmd ++ " " ++ m.fullname h " " ++ "\n"]
        else []) := by
  induction l with
  | nil => simp
  | cons m ms ih =>
    intro out
    rw [List.foldl_cons, ih, commandsStep_eq, List.flatMap_cons, List.append_assoc]

theorem bind_action_lines (l : List command) (line : command → String) :
    l.flatMap (fun m => if m.Cmd.Action = true then [line m] else []) =
      (l.filter (fun m => m.Cmd.Action)).map line := by
  induction l with
  | nil => simp
  | cons m ms ih =>
    rw [List.flatMap_cons, ih]
    by_cases ha : m.Cmd.Action = true
    · simp [ha]
    · simp [ha]

/-- C12: without `--relative` and `--description` the `commands` action writes
one line for each record of `lineate(App.Commands, nil)` whose command has an
action, in the order of the records, made of the application name, a space and
`fullname(" ")`; it returns no error, and there are as many lines as visible
commands with an action. -/
theorem commands_action_lines (p : Proc) (app : App) :
    commandsAction p app false false [] =
      (((lineate [] app.Commands Slice.nil).2.filter (fun m => m.Cmd.Action)).map
        (fun m => app.Name ++ " " ++ m.fullname (lineate [] app.Commands Slice.nil).1 " " ++ "\n"),
        none) ∧
    (commandsAction p app false false []).1.length =
      ((visibleRange app.Commands).filter (fun c => c.Action)).length := by
  have h1 : commandsAction p app false false [] =
      (((lineate [] app.Commands Slice.nil).2.filter (fun m => m.Cmd.Action)).map
        (fun m => app.Name ++ " " ++ m.fullname (lineate [] app.Commands Slice.nil).1 " " ++ "\n"),
        none) := by
    unfold commandsAction commandPrefix
    simp only [Bool.false_eq_true, if_false]
    rw [foldl_commandsStep]
    simp only [Bool.false_eq_true, if_false, List.nil_append]
    rw [← bind_action_lines]
  refine ⟨h1, ?_⟩
  rw [h1]
  simp only [List.length_map]
  have hp := ((lineate_cmd_perm app.Commands).filter (fun c => c.Action)).length_eq
  rw [← hp, List.filter_map, List.length_map]
  rfl

/-- C12 for the commands `a` (action), `b` (hidden, action) and the subcommand
`c` of `a` (action) under the program name `P`: the lines `P a` and `P a c`. -/
theorem commands_action_lines_witness :
    commandsAction exampleProc exampleApp false false [] = (["P a\n", "P a c\n"], none) := by
  rw [(commands_action_lines exampleProc exampleApp).1]
  decide

/-- C13: with `--description` the `commands` action writes, for each record
whose command has an action, the comment of the command (its description if
not empty, else its usage if not empty, else nothing) and right after it the
line of the command; a record without action gets neither. -/
theorem commands_action_description (p : Proc) (app : App) (relative : Bool) (cmd : String)
    (hcmd : commandPrefix p app relative = .ok cmd) :
    commandsAction p app relative true [] =
      ((lineate [] app.Commands Slice.nil).2.flatMap (fun m =>
        if m.Cmd.Action = true then
          (if m.Cmd.Description ≠ "" then ["# " ++ m.Cmd.Description ++ "\n"]
            else if m.Cmd.Usage ≠ "" then ["# " ++ m.Cmd.Usage ++ "\n"]
            else []) ++
          [cmd ++ " " ++ m.fullname (lineate [] app.Commands Slice.nil).1 " " ++ "\n"]
        else []), none) := by
  unfold commandsAction
  rw [hcmd]
  simp only
  rw [foldl_commandsStep]
  simp only [if_true, List.nil_append, commentLines]

/-- C13 for the scenario of C12, where `c` has the usage `prints stuff` and no
description and `a` has neither. -/
theorem commands_action_description_witness :
    commandsAction exampleProc exampleApp false true [] =
      (["P a\n", "# prints stuff\n", "P a c\n"], none) := by
  rw [commands_action_description exampleProc exampleApp false "P" rfl]
  decide

/-! ## The envvars action -/

theorem collectFlags_eq (app : App) (records : List command) :
    collectFlags app records = app.Flags ++ records.flatMap (fun m => m.Cmd.Flags) := by
  unfold collectFlags
  generalize app.Flags = init
  induction records generalizing init with
  | nil => simp
  | cons m ms ih => rw [List.foldl_cons, ih, List.flatMap_cons, List.append_assoc]

theorem foldl_write_lines (l : List String) (line : String → String) :
    ∀ out : Writer, l.foldl (fun o v => o ++ [line v]) out = out ++ l.map line := by
  induction l with
  | nil => simp
  | cons v vs ih =>
    intro out
    rw [List.foldl_cons, ih, List.map_cons, List.append_assoc]
    rfl

theorem envVarsAction_eq (app : App) :
    envVarsAction app [] =
      ((envvars (app.Flags ++
          (lineate [] app.Commands Slice.nil).2.flatMap (fun m => m.Cmd.Flags))).map
        (fun v => v ++ "=" ++ "\n"), none) := by
  unfold envVarsAction
  rw [foldl_write_lines _ (fun v => v ++ "=" ++ "\n"), collectFlags_eq, List.nil_append]

/-- C14: the `envvars` action writes the line `v=` for each `v` of
`envvars(flags)`, in that order, where `flags` is `App.Flags` followed by the
flags of every record of `lineate(App.Commands, nil)`; it returns no error, the
names are strictly ascending, and a name has a line exactly when a string,
boolean or int64 flag among `flags` declares it. -/
theorem envvars_action_lines (app : App) :
    envVarsAction app [] =
      ((envvars (app.Flags ++
          (lineate [] app.Commands Slice.nil).2.flatMap (fun m => m.Cmd.Flags))).map
        (fun v => v ++ "=" ++ "\n"), none) ∧
    (envvars (app.Flags ++
        (lineate [] app.Commands Slice.nil).2.flatMap (fun m => m.Cmd.Flags))).Pairwise
      (fun a b => a < b) ∧
    (∀ v, v ∈ envvars (app.Flags ++
        (lineate [] app.Commands Slice.nil).2.flatMap (fun m => m.Cmd.Flags)) ↔
      ∃ f ∈ app.Flags ++ (lineate [] app.Commands Slice.nil).2.flatMap (fun m => m.Cmd.Flags),
        scanned f.kind = true ∧ v ∈ f.EnvVars) := by
  refine ⟨envVarsAction_eq app, ?_, fun v => mem_envvars _ v⟩
  have hle : (envvars (app.Flags ++
      (lineate [] app.Commands Slice.nil).2.flatMap (fun m => m.Cmd.Flags))).Pairwise
      (fun a b => a ≤ b) := sortStrings_sorted _
  exact (hle.and (envvars_nodup _)).imp (fun h => lt_of_le_of_ne h.1 h.2)

/-- C14 for the global string flag `foo` (`FOO`) and a command with the boolean
flag `today` (`BARBAR`), the int64 flag `tomorrow` (`BAZBAZ`) and a flag without
variable: the lines `BARBAR=`, `BAZBAZ=`, `FOO=`. -/
theorem envvars_action_lines_witness :
    envVarsAction exampleEnvApp [] = (["BARBAR=\n", "BAZBAZ=\n", "FOO=\n"], none) := by
  rw [(envvars_action_lines exampleEnvApp).1]
  decide

theorem visible_subset_all :
    (∀ c : Command, ∀ x ∈ visibleRange [c], x ∈ allRange [c]) ∧
    (∀ cmds : List Command, ∀ x ∈ visibleRange cmds, x ∈ allRange cmds) := by
  apply Command.induct
  · intro n u d a f act hid subs ih x hx
    simp only [visibleRange, visibleCmd, List.append_nil] at hx
    simp only [allRange, allCmd, List.append_nil]
    cases hid with
    | true => simp at hx
    | false =>
      simp only [Bool.false_eq_true, if_false, List.mem_cons] at hx
      rcases hx with rfl | hx
      · exact List.mem_cons_self _ _
      · exact List.mem_cons_of_mem _ (ih x hx)
  · intro x hx
    simp [visibleRange] at hx
  · intro c rest ihc ihrest x hx
    simp only [visibleRange, List.mem_append] at hx
    simp only [allRange, List.mem_append]
    rcases hx with hx | hx
    · left
      have h1 := ihc x (by simpa [visibleRange] using hx)
      simpa [allRange] using h1
    · exact Or.inr (ihrest x hx)

theorem line_injective (a b : String) (h : a ++ "=" ++ "\n" = b ++ "=" ++ "\n") : a = b := by
  have h1 := congrArg String.data h
  simp only [String.data_append] at h1
  have h2 := List.append_cancel_right (List.append_cancel_right h1)
  exact String.ext h2

theorem mem_envVarsAction (app : App) (x : String) :
    (x ++ "=" ++ "\n") ∈ (envVarsAction app []).1 ↔
      ∃ f ∈ visibleFlags app, scanned f.kind = true ∧ x ∈ f.EnvVars := by
  rw [envVarsAction_eq]
  simp only [List.mem_map]
  constructor
  · rintro ⟨v, hv, hx⟩
    have hvx := line_injective v x hx
    subst hvx
    rw [mem_envvars] at hv
    obtain ⟨f, hf, hk, hx2⟩ := hv
    refine ⟨f, ?_, hk, hx2⟩
    unfold visibleFlags
    rw [List.mem_append, List.mem_flatMap] at hf ⊢
    rcases hf with hf | ⟨m, hm, hf⟩
    · exact Or.inl hf
    · right
      exact ⟨m.Cmd, (lineate_cmd_perm app.Commands).subset (List.mem_map_of_mem _ hm), hf⟩
  · rintro ⟨f, hf, hk, hx2⟩
    refine ⟨x, ?_, rfl⟩
    rw [mem_envvars]
    refine ⟨f, ?_, hk, hx2⟩
    unfold visibleFlags at hf
    rw [List.mem_append, List.mem_flatMap] at hf ⊢
    rcases hf with hf | hf
    · exact Or.inl hf
    · right
      obtain ⟨c, hc, hf2⟩ := hf
      have hc2 := (lineate_cmd_perm app.Commands).symm.subset hc
      rw [List.mem_map] at hc2
      obtain ⟨m, hm, rfl⟩ := hc2
      exact ⟨m, hm, hf2⟩

/-- C15 as stated fails: in an application with string and boolean flags only,
the hidden command `admin` declares `ADMIN` and its visible subcommand `sub`
declares `SUB`, and the `envvars` action writes a line for neither. -/
theorem envvars_action_skips_hidden :
    (∀ f ∈ allFlags exampleHiddenApp, scanned f.kind = true) ∧
    (∃ f ∈ allFlags exampleHiddenApp, "ADMIN" ∈ f.EnvVars) ∧
    (∃ f ∈ allFlags exampleHiddenApp, "SUB" ∈ f.EnvVars) ∧
    (envVarsAction exampleHiddenApp []).1 = ["FOO=\n"] ∧
    ¬ (∀ x, (∃ f ∈ allFlags exampleHiddenApp, x ∈ f.EnvVars) →
      (x ++ "=" ++ "\n") ∈ (envVarsAction exampleHiddenApp []).1) := by
  refine ⟨by decide, by decide, by decide, by decide, ?_⟩
  intro hall
  have h := hall "SUB" (by decide)
  revert h
  decide

/-- C15, amended: when all flags of the application are string, boolean or
int64 flags, the `envvars` action writes the line `x=` exactly for the names
`x` declared by a global flag or by a flag of a command that is not hidden and
has no hidden ancestor. -/
theorem envvars_action_visible_flags (app : App)
    (hk : ∀ f ∈ allFlags app, scanned f.kind = true) (x : String) :
    (x ++ "=" ++ "\n") ∈ (envVarsAction app []).1 ↔ ∃ f ∈ visibleFlags app, x ∈ f.EnvVars := by
  rw [mem_envVarsAction]
  constructor
  · rintro ⟨f, hf, _, hx⟩
    exact ⟨f, hf, hx⟩
  · rintro ⟨f, hf, hx⟩
    refine ⟨f, hf, hk f ?_, hx⟩
    unfold visibleFlags at hf
    unfold allFlags
    rw [List.mem_append, List.mem_flatMap] at hf ⊢
    rcases hf with hf | ⟨c, hc, hf⟩
    · exact Or.inl hf
    · exact Or.inr ⟨c, visible_subset_all.2 _ c hc, hf⟩

/-- C15, amended, for the application with the hidden command `admin`: the
global `FOO` has its line. -/
theorem envvars_action_visible_flags_witness :
    ("FOO" ++ "=" ++ "\n") ∈ (envVarsAction exampleHiddenApp []).1 :=
  (envvars_action_visible_flags exampleHiddenApp (by decide) "FOO").mpr (by decide)

/-! ## The manual action and the template functions -/

/-- C17: the `manual` action returns the error and leaves the writer as it was
when the template cannot be resolved or its execution fails, and otherwise
hands the writer the rendered text in one write and returns no error. -/
theorem manual_action_writes {τ : Type} (w : World) (parse : String → Except Error τ)
    (execute : τ → RenderData → String × Option Error) (app : App) (args : List String)
    (out : Writer) :
    (∀ e, commandsTemplate w parse args = .error e →
      manualAction w parse execute app args out = (out, some e)) ∧
    (∀ t buffer e, commandsTemplate w parse args = .ok t →
      execute t ⟨app.Name, app.Description, app.Flags, (lineate [] app.Commands Slice.nil).2,
        (lineate [] app.Commands Slice.nil).1⟩ = (buffer, some e) →
      manualAction w parse execute app args out = (out, some e)) ∧
    (∀ t buffer, commandsTemplate w parse args = .ok t →
      execute t ⟨app.Name, app.Description, app.Flags, (lineate [] app.Commands Slice.nil).2,
        (lineate [] app.Commands Slice.nil).1⟩ = (buffer, none) →
      manualAction w parse execute app args out = (out ++ [buffer], none)) := by
  refine ⟨?_, ?_, ?_⟩
  · intro e he
    unfold manualAction
    rw [he]
  · intro t buffer e ht hex
    unfold manualAction
    rw [ht]
    simp only
    rw [hex]
  · intro t buffer ht hex
    unfold manualAction
    rw [ht]
    simp only
    rw [hex]

/-- C17 with the embedded template only: it is written once; with a template
that fails to execute and with no template at all nothing is written. -/
theorem manual_action_writes_witness :
    manualAction exampleWorld (fun s => .ok s) exampleExecute exampleApp [] [] =
      (["embedded"], none) ∧
    manualAction exampleWorld (fun _ => .ok "fail") exampleExecute exampleApp [] [] =
      ([], some (.other "execute")) ∧
    manualAction exampleWorld (fun _ => (.error (.other "parse") : Except Error String))
      exampleExecute exampleApp [] [] = ([], some (.other "parse")) :=
  ⟨(manual_action_writes exampleWorld (fun s => .ok s) exampleExecute exampleApp [] []).2.2
      "embedded" "embedded" rfl rfl,
   (manual_action_writes exampleWorld (fun _ => .ok "fail") exampleExecute exampleApp [] []).2.1
      "fail" "partly" (.other "execute") rfl rfl,
   (manual_action_writes exampleWorld (fun _ => (.error (.other "parse") : Except Error String))
      exampleExecute exampleApp [] []).1 (.other "parse") rfl⟩

/-- C18: the template function `names` returns the empty string for a flag with
no name or one name, and otherwise all names but the first, in order, joined
by a comma and a space. -/
theorem names_skips_first (f : Flag) :
    (f.Names.length ≤ 1 → namesFunc f = "") ∧
    (∀ first second rest, f.Names = first :: second :: rest →
      namesFunc f = String.intercalate ", " (second :: rest)) := by
  constructor
  · intro h
    simp [namesFunc, h]
  · intro first second rest h
    simp [namesFunc, h]

/-- C18 for a flag with three names and for a flag with one name. -/
theorem names_skips_first_witness :
    namesFunc ⟨.StringFlag, ["output", "o", "out"], [], ""⟩ = "o, out" ∧
    namesFunc ⟨.StringFlag, ["output"], [], ""⟩ = "" :=
  ⟨(names_skips_first ⟨.StringFlag, ["output", "o", "out"], [], ""⟩).2 "output" "o" ["out"] rfl,
   (names_skips_first ⟨.StringFlag, ["output"], [], ""⟩).1 (by decide)⟩

theorem foldl_aliases (l : List String) :
    ∀ s : List String, l.foldl (fun s a => if a ≠ "" then s ++ [a] else s) s =
      s ++ l.filter (fun a => a ≠ "") := by
  induction l with
  | nil => simp
  | cons a as ih =>
    intro s
    rw [List.foldl_cons, ih]
    by_cases ha : a = ""
    · simp [ha]
    · simp [ha]

/-- C19: `aliases()` returns the aliases of the command that are not the empty
string, in their declared order, and none when the command declares no alias or
only empty ones. -/
theorem aliases_nonempty_in_order (c : command) :
    c.aliases = c.Cmd.Aliases.filter (fun a => a ≠ "") ∧
    ((∀ a ∈ c.Cmd.Aliases, a = "") → c.aliases = []) := by
  have h1 : c.aliases = c.Cmd.Aliases.filter (fun a => a ≠ "") := by
    unfold command.aliases
    split
    · rename_i hnil
      rw [hnil]
      rfl
    · rw [foldl_aliases, List.nil_append]
  refine ⟨h1, ?_⟩
  intro hall
  rw [h1, List.filter_eq_nil_iff]
  intro a ha
  simp [hall a ha]

/-- C19 for the aliases `man`, the empty string and `m`. -/
theorem aliases_nonempty_in_order_witness :
    command.aliases ⟨.mk "manual" "" "" ["man", "", "m"] [] true true [], Slice.nil⟩ =
      ["man", "m"] ∧
    command.aliases ⟨.mk "manual" "" "" ["", ""] [] true true [], Slice.nil⟩ = [] :=
  ⟨by
    rw [(aliases_nonempty_in_order _).1]
    decide,
   (aliases_nonempty_in_order ⟨.mk "manual" "" "" ["", ""] [] true true [], Slice.nil⟩).2
    (by
      intro a ha
      simp [Command.Aliases] at ha
      exact ha)⟩

/-- C20: in the tree `r > s > t > {m > e, b}` the record of `e`, a subcommand
of `m`, comes back with the sort key `rstbe` and is listed before the record
of `m`, whose key is `rstm`. -/
theorem lineate_child_before_parent :
    (lineate [] exampleEarly Slice.nil).2.map
        (fun r => (r.Cmd.Name, r.fullname (lineate [] exampleEarly Slice.nil).1 "")) =
      [("r", "r"), ("s", "rs"), ("t", "rst"), ("b", "rstb"), ("e", "rstbe"), ("m", "rstm")] ∧
    (preorderRange [] exampleEarly).map
        (fun r => (r.Cmd.Name, r.Lineage.map Command.Name)) =
      [("r", []), ("s", ["r"]), ("t", ["r", "s"]), ("m", ["r", "s", "t"]),
        ("e", ["r", "s", "t", "m"]), ("b", ["r", "s", "t"])] := by
  decide

/-! ## Full names -/

theorem intercalate_go_data (s : String) (l : List String) :
    ∀ acc : String, (String.intercalate.go acc s l).data =
      acc.data ++ (l.map (fun a => s.data ++ a.data)).flatten := by
  induction l with
  | nil => simp [String.intercalate.go]
  | cons a as ih =>
    intro acc
    simp [String.intercalate.go, ih, String.data_append, List.append_assoc]

theorem list_intercalate_cons {α : Type} (sep a : List α) (as : List (List α)) :
    List.intercalate sep (a :: as) = a ++ (as.map (fun x => sep ++ x)).flatten := by
  induction as generalizing a with
  | nil => simp [List.intercalate]
  | cons b bs ih =>
    have h := ih b
    simp only [List.intercalate, List.intersperse, List.flatten] at h ⊢
    simp [h, List.intersperse]

theorem intercalate_data (s : String) (l : List String) :
    (String.intercalate s l).data = List.intercalate s.data (l.map String.data) := by
  cases l with
  | nil => simp [String.intercalate, List.intercalate]
  | cons a as =>
    rw [List.map_cons, list_intercalate_cons]
    simp [String.intercalate, intercalate_go_data, List.map_map, Function.comp_def]

theorem intercalate_injective (c : Char) (l1 l2 : List String) (h1 : l1 ≠ []) (h2 : l2 ≠ [])
    (hc1 : ∀ n ∈ l1, c ∉ n.data) (hc2 : ∀ n ∈ l2, c ∉ n.data)
    (heq : String.intercalate (String.singleton c) l1 = String.intercalate (String.singleton c) l2) :
    l1 = l2 := by
  have hd := congrArg String.data heq
  rw [intercalate_data, intercalate_data] at hd
  have hs : (String.singleton c).data = [c] := rfl
  rw [hs] at hd
  have e1 := List.splitOn_intercalate (l1.map String.data) c (by simpa using hc1)
    (by simpa using h1)
  have e2 := List.splitOn_intercalate (l2.map String.data) c (by simpa using hc2)
    (by simpa using h2)
  rw [hd, e2] at e1
  have hinj : Function.Injective String.data := fun a b hab => String.ext hab
  exact (List.map_injective_iff.mpr hinj e1).symm

theorem command_fullname_eq (h : Heap) (r : command) (sep : String) :
    r.fullname h sep = String.intercalate sep (command.record h r).path :=
  rfl

theorem distinctRange_cons (c : Command) (rest : List Command) :
    distinctRange (c :: rest) = true ↔
      c.Name ∉ rest.map Command.Name ∧ distinctCmd c = true ∧ distinctRange rest = true := by
  simp [distinctRange, and_assoc]

theorem preorderRange_cons (lineage : List Command) (c : Command) (rest : List Command) :
    preorderRange lineage (c :: rest) = preorderCmd lineage c ++ preorderRange lineage rest := by
  simp [preorderRange]

/-- The path of every record found below `c` starts with the names of the
lineage and the name of `c`. -/
theorem preorder_path_prefix :
    (∀ c : Command, ∀ lineage : List Command, ∀ r ∈ preorderCmd lineage c,
      ∃ rest, r.path = lineage.map Command.Name ++ c.Name :: rest) ∧
    (∀ cmds : List Command, ∀ lineage : List Command, ∀ r ∈ preorderRange lineage cmds,
      ∃ c ∈ cmds, ∃ rest, r.path = lineage.map Command.Name ++ c.Name :: rest) := by
  apply Command.induct
  · intro n u d a f act hid subs ih lineage r hr
    cases hid with
    | true => simp [preorderCmd] at hr
    | false =>
      simp only [preorderCmd, Bool.false_eq_true, if_false, List.mem_cons] at hr
      rcases hr with rfl | hr
      · exact ⟨[], rfl⟩
      · obtain ⟨c1, _, rest, hp⟩ := ih _ r hr
        refine ⟨c1.Name :: rest, ?_⟩
        rw [hp]
        simp [Command.Name]
  · intro lineage r hr
    simp [preorderRange] at hr
  · intro c rest ihc ihrest lineage r hr
    rw [preorderRange_cons, List.mem_append] at hr
    rcases hr with hr | hr
    · obtain ⟨tail, hp⟩ := ihc lineage r hr
      exact ⟨c, List.mem_cons_self _ _, tail, hp⟩
    · obtain ⟨c1, hc1, tail, hp⟩ := ihrest lineage r hr
      exact ⟨c1, List.mem_cons_of_mem _ hc1, tail, hp⟩

theorem preorder_path_nodup :
    (∀ c : Command, distinctCmd c = true → ∀ lineage : List Command,
      ((preorderCmd lineage c).map Record.path).Nodup) ∧
    (∀ cmds : List Command, distinctRange cmds = true → ∀ lineage : List Command,
      ((preorderRange lineage cmds).map Record.path).Nodup) := by
  apply Command.induct
  · intro n u d a f act hid subs ih hd lineage
    cases hid with
    | true => simp [preorderCmd]
    | false =>
      simp only [preorderCmd, Bool.false_eq_true, if_false, List.map_cons, List.nodup_cons]
      refine ⟨?_, ih (by simpa [distinctCmd] using hd) _⟩
      intro hmem
      rw [List.mem_map] at hmem
      obtain ⟨r, hr, hp⟩ := hmem
      obtain ⟨c1, _, rest, hp2⟩ := preorder_path_prefix.2 subs _ r hr
      rw [hp2] at hp
      simp [Record.path, Command.Name] at hp
  · intro _ lineage
    simp [preorderRange]
  · intro c rest ihc ihrest hd lineage
    rw [distinctRange_cons] at hd
    rw [preorderRange_cons, List.map_append, List.nodup_append]
    refine ⟨ihc hd.2.1 lineage, ihrest hd.2.2 lineage, ?_⟩
    intro p hp1 hp2
    rw [List.mem_map] at hp1 hp2
    obtain ⟨r1, hr1, rfl⟩ := hp1
    obtain ⟨r2, hr2, heq⟩ := hp2
    obtain ⟨tail1, ht1⟩ := preorder_path_prefix.1 c lineage r1 hr1
    obtain ⟨c2, hc2, tail2, ht2⟩ := preorder_path_prefix.2 rest lineage r2 hr2
    rw [ht1, ht2] at heq
    have hname := (List.cons.inj (List.append_cancel_left heq)).1
    exact hd.1 (List.mem_map.mpr ⟨c2, hc2, hname⟩)

theorem allRange_cons (c : Command) (rest : List Command) :
    allRange (c :: rest) = allCmd c ++ allRange rest := by
  simp [allRange]

/-- The commands of the records of the traversal are commands of the tree. -/
theorem preorder_mem_all :
    (∀ c : Command, ∀ lineage : List Command, ∀ r ∈ preorderCmd lineage c,
      r.Cmd ∈ allCmd c ∧ ∀ x ∈ r.Lineage, x ∈ lineage ∨ x ∈ allCmd c) ∧
    (∀ cmds : List Command, ∀ lineage : List Command, ∀ r ∈ preorderRange lineage cmds,
      r.Cmd ∈ allRange cmds ∧ ∀ x ∈ r.Lineage, x ∈ lineage ∨ x ∈ allRange cmds) := by
  apply Command.induct
  · intro n u d a f act hid subs ih lineage r hr
    cases hid with
    | true => simp [preorderCmd] at hr
    | false =>
      simp only [preorderCmd, Bool.false_eq_true, if_false, List.mem_cons] at hr
      rcases hr with rfl | hr
      · exact ⟨by simp [allCmd], fun x hx => Or.inl hx⟩
      · obtain ⟨h1, h2⟩ := ih _ r hr
        refine ⟨by simp [allCmd, h1], ?_⟩
        intro x hx
        rcases h2 x hx with hx2 | hx2
        · rw [List.mem_append, List.mem_singleton] at hx2
          rcases hx2 with hx2 | rfl
          · exact Or.inl hx2
          · exact Or.inr (by simp [allCmd])
        · exact Or.inr (by simp [allCmd, hx2])
  · intro lineage r hr
    simp [preorderRange] at hr
  · intro c rest ihc ihrest lineage r hr
    rw [preorderRange_cons, List.mem_append] at hr
    rw [allRange_cons]
    rcases hr with hr | hr
    · obtain ⟨h1, h2⟩ := ihc lineage r hr
      refine ⟨List.mem_append_left _ h1, ?_⟩
      intro x hx
      rcases h2 x hx with hx2 | hx2
      · exact Or.inl hx2
      · exact Or.inr (List.mem_append_left _ hx2)
    · obtain ⟨h1, h2⟩ := ihrest lineage r hr
      refine ⟨List.mem_append_right _ h1, ?_⟩
      intro x hx
      rcases h2 x hx with hx2 | hx2
      · exact Or.inl hx2
      · exact Or.inr (List.mem_append_right _ hx2)

theorem preorder_fullname_nodup (cmds : List Command) (sep : Char)
    (hd : distinctRange cmds = true) (hs : ∀ c ∈ allRange cmds, sep ∉ c.Name.data) :
    ((preorderRange [] cmds).map (fun r => r.fullname (String.singleton sep))).Nodup := by
  have hpath := preorder_path_nodup.2 cmds hd []
  have hfree : ∀ p ∈ (preorderRange [] cmds).map Record.path, p ≠ [] ∧ ∀ n ∈ p, sep ∉ n.data := by
    intro p hp
    rw [List.mem_map] at hp
    obtain ⟨r, hr, rfl⟩ := hp
    obtain ⟨h1, h2⟩ := preorder_mem_all.2 cmds [] r hr
    refine ⟨by simp [Record.path], ?_⟩
    intro n hn
    simp only [Record.path, List.mem_append, List.mem_map, List.mem_singleton] at hn
    rcases hn with ⟨x, hx, rfl⟩ | rfl
    · rcases h2 x hx with hx2 | hx2
      · cases hx2
      · exact hs x hx2
    · exact hs _ h1
  have hmap : (preorderRange [] cmds).map (fun r => r.fullname (String.singleton sep)) =
      ((preorderRange [] cmds).map Record.path).map (String.intercalate (String.singleton sep)) := by
    rw [List.map_map]
    rfl
  rw [hmap]
  refine List.Nodup.map_on ?_ hpath
  intro p1 hp1 p2 hp2 heq
  exact intercalate_injective sep p1 p2 (hfree p1 hp1).1 (hfree p2 hp2).1
    (hfree p1 hp1).2 (hfree p2 hp2).2 heq

/-- C16 as stated fails: in the tree with the roots `a > bc` and `ab > c`
sibling names are pairwise distinct, and with the empty separator the records
of `bc` and of `c` both have the full name `abc`. -/
theorem fullname_empty_separator_clash :
    distinctRange exampleAmbiguous = true ∧
    (lineate [] exampleAmbiguous Slice.nil).2.map
        (fun r => (r.Cmd.Name, r.fullname (lineate [] exampleAmbiguous Slice.nil).1 "")) =
      [("a", "a"), ("ab", "ab"), ("bc", "abc"), ("c", "abc")] ∧
    ¬ ((lineate [] exampleAmbiguous Slice.nil).2.map
        (fun r => r.fullname (lineate [] exampleAmbiguous Slice.nil).1 "")).Nodup := by
  decide

/-- C16, amended: when sibling commands have pairwise distinct names, the
separator is one character that occurs in no command name, and every record
holds its ancestors as lineage, no two records of `lineate(cmds, nil)` have the
same `fullname(sep)`. -/
theorem fullname_unique (cmds : List Command) (sep : Char)
    (hd : distinctRange cmds = true) (hs : ∀ c ∈ allRange cmds, sep ∉ c.Name.data)
    (hi : Intact cmds) :
    ((lineate [] cmds Slice.nil).2.map
      (fun r => r.fullname (lineate [] cmds Slice.nil).1 (String.singleton sep))).Nodup := by
  have hmap : (lineate [] cmds Slice.nil).2.map
      (fun r => r.fullname (lineate [] cmds Slice.nil).1 (String.singleton sep)) =
      ((lineate [] cmds Slice.nil).2.map (command.record (lineate [] cmds Slice.nil).1)).map
        (fun r => r.fullname (String.singleton sep)) := by
    rw [List.map_map]
    rfl
  rw [hmap]
  exact (hi.map _).nodup_iff.mpr (preorder_fullname_nodup cmds sep hd hs)

/-! ## Where the lineage stays intact -/

theorem SliceStable_append {α : Type} (less : α → α → Bool) (l1 l2 : List α) :
    SliceStable less (l1 ++ l2) = l1.foldr (insertStable less) (SliceStable less l2) := by
  induction l1 with
  | nil => rfl
  | cons x xs ih => simp [SliceStable, ih]

theorem insertStable_comm {α : Type} (less : α → α → Bool)
    (htrans : ∀ a b c, less a b = true → less b c = true → less a c = true)
    (hasymm : ∀ a b, less a b = true → less b a = false)
    (x y : α) (hxy : less y x = true) (l : List α) :
    insertStable less y (insertStable less x l) = insertStable less x (insertStable less y l) := by
  induction l with
  | nil => simp [insertStable, hxy, hasymm y x hxy]
  | cons u us ih =>
    by_cases huy : less u y = true
    · have hux := htrans u y x huy hxy
      simp [insertStable, huy, hux, ih]
    · by_cases hux : less u x = true
      · simp [insertStable, huy, hux, hxy]
      · simp [insertStable, huy, hux, hxy, hasymm y x hxy]

theorem foldr_insertStable_insert {α : Type} (less : α → α → Bool)
    (htrans : ∀ a b c, less a b = true → less b c = true → less a c = true)
    (hasymm : ∀ a b, less a b = true → less b a = false)
    (x : α) (s t : List α) :
    (insertStable less x t).foldr (insertStable less) s =
      insertStable less x (t.foldr (insertStable less) s) := by
  induction t with
  | nil => simp [insertStable]
  | cons y ys ih =>
    by_cases hyx : less y x = true
    · simp only [insertStable, hyx, if_true, List.foldr_cons, ih]
      exact insertStable_comm less htrans hasymm x y hyx _
    · simp [insertStable, hyx]

theorem foldr_insertStable_sorted {α : Type} (less : α → α → Bool)
    (htrans : ∀ a b c, less a b = true → less b c = true → less a c = true)
    (hasymm : ∀ a b, less a b = true → less b a = false)
    (s l : List α) :
    (SliceStable less l).foldr (insertStable less) s = l.foldr (insertStable less) s := by
  induction l with
  | nil => rfl
  | cons x xs ih =>
    simp only [SliceStable, List.foldr_cons]
    rw [foldr_insertStable_insert less htrans hasymm, ih]

theorem SliceStable_idem {α : Type} (less : α → α → Bool)
    (htrans : ∀ a b c, less a b = true → less b c = true → less a c = true)
    (hasymm : ∀ a b, less a b = true → less b a = false) (l : List α) :
    SliceStable less (SliceStable less l) = SliceStable less l := by
  have h := foldr_insertStable_sorted less htrans hasymm [] l
  have e : ∀ m : List α, m.foldr (insertStable less) [] = SliceStable less m := by
    intro m
    have := SliceStable_append less m []
    simpa [SliceStable] using this.symm
  rw [e, e] at h
  exact h

theorem SliceStable_congr_left {α : Type} (less : α → α → Bool)
    (htrans : ∀ a b c, less a b = true → less b c = true → less a c = true)
    (hasymm : ∀ a b, less a b = true → less b a = false) (l1 l2 r : List α)
    (h : SliceStable less l1 = SliceStable less l2) :
    SliceStable less (l1 ++ r) = SliceStable less (l2 ++ r) := by
  rw [SliceStable_append, SliceStable_append,
    ← foldr_insertStable_sorted less htrans hasymm _ l1,
    ← foldr_insertStable_sorted less htrans hasymm _ l2, h]

theorem SliceStable_congr_right {α : Type} (less : α → α → Bool) (l r1 r2 : List α)
    (h : SliceStable less r1 = SliceStable less r2) :
    SliceStable less (l ++ r1) = SliceStable less (l ++ r2) := by
  rw [SliceStable_append, SliceStable_append, h]

theorem insertStable_map {α β : Type} (f : α → β) (less : β → β → Bool) (x : α) (l : List α) :
    (insertStable (fun a b => less (f a) (f b)) x l).map f = insertStable less (f x) (l.map f) := by
  induction l with
  | nil => rfl
  | cons y ys ih =>
    by_cases h : less (f y) (f x) = true
    · simp [insertStable, h, ih]
    · simp [insertStable, h]

theorem SliceStable_map {α β : Type} (f : α → β) (less : β → β → Bool) (l : List α) :
    (SliceStable (fun a b => less (f a) (f b)) l).map f = SliceStable less (l.map f) := by
  induction l with
  | nil => rfl
  | cons x xs ih => simp [SliceStable, insertStable_map, ih]

theorem recordLess_trans (a b c : Record) (h1 : recordLess a b = true)
    (h2 : recordLess b c = true) : recordLess a c = true := by
  unfold recordLess at *
  rw [stringLess_iff] at *
  exact lt_trans h1 h2

theorem recordLess_asymm (a b : Record) (h1 : recordLess a b = true) :
    recordLess b a = false := by
  unfold recordLess at *
  rw [stringLess_iff] at h1
  rw [stringLess_eq_false_iff]
  exact le_of_lt h1

theorem sorted_records (h : Heap) (l : List command) :
    (SliceStable (fullnameLess h) l).map (command.record h) =
      SliceStable recordLess (l.map (command.record h)) :=
  SliceStable_map (command.record h) recordLess l

theorem getD_set_ne (h : Heap) (i j : Nat) (a : List Command) (hij : i ≠ j) :
    (h.set i a).getD j [] = h.getD j [] := by
  simp [List.getD_eq_getElem?_getD, List.getElem?_set_ne hij]

theorem getD_set_self (h : Heap) (i : Nat) (a : List Command) (hi : i < h.length) :
    (h.set i a).getD i [] = a := by
  simp [List.getD_eq_getElem?_getD, List.getElem?_set_self hi]

theorem getD_append_left (h : Heap) (l : Heap) (j : Nat) (hj : j < h.length) :
    (h ++ l).getD j [] = h.getD j [] := by
  simp [List.getD_eq_getElem?_getD, List.getElem?_append_left hj]

theorem getD_append_length (h : Heap) (a : List Command) :
    (h ++ [a]).getD h.length [] = a := by
  simp [List.getD_eq_getElem?_getD]

theorem elems_len_zero (h : Heap) (t : Slice) (ht : t.len = 0) : t.elems h = [] := by
  simp [Slice.elems, ht]

theorem valid_array_lt (h : Heap) (s : Slice) (hv : Valid h s) (hpos : 0 < s.len) :
    s.array < h.length := by
  by_contra hlt
  have h1 := hv.1
  rw [List.getD_eq_default h [] (Nat.le_of_not_lt hlt)] at h1
  simp at h1
  omega

theorem appendSlice_length (h : Heap) (s : Slice) (x : Command) :
    h.length ≤ (appendSlice h s x).1.length := by
  unfold appendSlice
  split <;> simp

theorem appendSlice_frame (h : Heap) (s : Slice) (x : Command) (hv : Valid h s)
    (t : Slice) (ht : Outside h s t) :
    t.elems (appendSlice h s x).1 = t.elems h := by
  rcases ht with ht | ⟨hlt, hcond⟩
  · rw [elems_len_zero _ t ht, elems_len_zero _ t ht]
  · unfold appendSlice
    split
    · rename_i hspare
      rcases hcond hspare with hne | hle
      · simp only [Slice.elems]
        rw [getD_set_ne h s.array t.array _ (Ne.symm hne)]
      · by_cases heq : t.array = s.array
        · simp only [Slice.elems]
          rw [heq, getD_set_self h s.array _ (hv.2 hspare)]
          have hlen : ((h.getD s.array []).take s.len).length = s.len := by
            rw [List.length_take]
            exact Nat.min_eq_left hv.1
          rw [List.take_append_of_le_length (by omega), List.take_take, Nat.min_eq_left hle]
        · simp only [Slice.elems]
          rw [getD_set_ne h s.array t.array _ (Ne.symm heq)]
    · simp only [Slice.elems]
      rw [getD_append_left h _ t.array hlt]

theorem appendSlice_valid (h : Heap) (s : Slice) (x : Command) (hv : Valid h s) :
    Valid (appendSlice h s x).1 (appendSlice h s x).2 := by
  unfold appendSlice
  split
  · rename_i hspare
    have hlt := hv.2 hspare
    constructor
    · simp only
      rw [getD_set_self h s.array _ hlt]
      simp only [List.length_append, List.length_take, List.length_cons]
      have := hv.1
      omega
    · intro _
      simp only [List.length_set]
      exact hlt
  · constructor
    · simp only
      rw [getD_append_length]
      simp only [List.length_append, List.length_take, List.length_singleton]
      have := hv.1
      omega
    · intro _
      simp

theorem appendSlice_elems_alloc (h : Heap) (s : Slice) (x : Command) (hv : Valid h s)
    (hfull : ¬ s.len < s.cap) :
    (appendSlice h s x).2.elems (appendSlice h s x).1 = s.elems h ++ [x] ∧
    (appendSlice h s x).2.array = h.length ∧
    (appendSlice h s x).2.len = s.len + 1 ∧
    (appendSlice h s x).2.cap = nextslicecap s.cap ∧
    (appendSlice h s x).1.length = h.length + 1 := by
  unfold appendSlice
  rw [if_neg hfull]
  refine ⟨?_, rfl, rfl, rfl, by simp⟩
  simp only [Slice.elems]
  rw [getD_append_length]
  have hlen : ((h.getD s.array []).take s.len).length = s.len := by
    rw [List.length_take]
    exact Nat.min_eq_left hv.1
  rw [List.take_of_length_le (by simp [hlen])]

theorem outside_self (h : Heap) (s : Slice) (hv : Valid h s) : Outside h s s := by
  by_cases hz : s.len = 0
  · exact Or.inl hz
  · exact Or.inr ⟨valid_array_lt h s hv (Nat.pos_of_ne_zero hz), fun _ => Or.inr (le_refl _)⟩

theorem outside_mono (h h1 : Heap) (s t : Slice) (hlen : h.length ≤ h1.length)
    (ht : Outside h s t) : Outside h1 s t := by
  rcases ht with ht | ⟨hlt, hcond⟩
  · exact Or.inl ht
  · exact Or.inr ⟨lt_of_lt_of_le hlt hlen, hcond⟩

theorem outside_step (h : Heap) (s t : Slice) (x : Command) (ht : Outside h s t) :
    Outside (appendSlice h s x).1 (appendSlice h s x).2 t := by
  rcases ht with ht | ⟨hlt, hcond⟩
  · exact Or.inl ht
  · refine Or.inr ⟨lt_of_lt_of_le hlt (appendSlice_length h s x), ?_⟩
    unfold appendSlice
    split
    · rename_i hspare
      intro _
      rcases hcond hspare with hne | hle
      · exact Or.inl hne
      · exact Or.inr (Nat.le_succ_of_le hle)
    · intro _
      exact Or.inl (Nat.ne_of_lt hlt)

theorem valid_of_elems_eq (h h1 : Heap) (s : Slice) (hv : Valid h s)
    (hlen : h.length ≤ h1.length) (he : s.elems h1 = s.elems h) : Valid h1 s := by
  constructor
  · have h2 := congrArg List.length he
    simp only [Slice.elems, List.length_take] at h2
    have := hv.1
    omega
  · intro hspare
    exact lt_of_lt_of_le (hv.2 hspare) hlen

theorem lineateRange_single_hidden (h : Heap) (s : Slice) (acc : List command) (c : Command)
    (hh : c.Hidden = true) : lineateRange h s acc [c] = (h, acc) := by
  rw [lineateRange_cons, lineateRange_nil, lineateCmd_eq]
  simp [hh]

theorem lineateRange_single_visible (h : Heap) (s : Slice) (acc : List command) (c : Command)
    (hh : c.Hidden = false) :
    lineateRange h s acc [c] =
      ((lineateRange (appendSlice h s c).1 (appendSlice h s c).2 [] c.Subcommands).1,
        (acc ++ [⟨c, s⟩]) ++
          SliceStable
            (fullnameLess
              (lineateRange (appendSlice h s c).1 (appendSlice h s c).2 [] c.Subcommands).1)
            (lineateRange (appendSlice h s c).1 (appendSlice h s c).2 [] c.Subcommands).2) := by
  rw [lineateRange_cons, lineateRange_nil, lineateCmd_eq, lineate_eq]
  simp [hh]

theorem lineateRange_cons_single (h : Heap) (s : Slice) (acc : List command) (c : Command)
    (rest : List Command) :
    lineateRange h s acc (c :: rest) =
      lineateRange (lineateRange h s acc [c]).1 s (lineateRange h s acc [c]).2 rest := by
  rw [lineateRange_cons, lineateRange_cons, lineateRange_nil]

/-- The loop of `lineate` writes only into arrays it allocates and, when its
lineage has spare capacity, into the array of the lineage from the end of the
lineage on. -/
theorem lineate_frame :
    (∀ c : Command, LoopFrame [c]) ∧ (∀ cmds : List Command, LoopFrame cmds) := by
  apply Command.induct
  · intro n u d a f act hid subs ih h s acc hv
    cases hid with
    | true =>
      rw [lineateRange_single_hidden h s acc (Command.mk n u d a f act true subs) rfl]
      exact ⟨le_refl _, hv, fun _ _ => rfl⟩
    | false =>
      rw [lineateRange_single_visible h s acc (Command.mk n u d a f act false subs) rfl]
      simp only [Command.Subcommands]
      obtain ⟨hlen, _, hframe⟩ := ih (appendSlice h s (Command.mk n u d a f act false subs)).1
        (appendSlice h s (Command.mk n u d a f act false subs)).2 []
        (appendSlice_valid h s _ hv)
      have hlen2 := le_trans (appendSlice_length h s (Command.mk n u d a f act false subs)) hlen
      have hall : ∀ t, Outside h s t →
          t.elems (lineateRange (appendSlice h s (Command.mk n u d a f act false subs)).1
            (appendSlice h s (Command.mk n u d a f act false subs)).2 [] subs).1 = t.elems h := by
        intro t ht
        rw [hframe t (outside_step h s t _ ht)]
        exact appendSlice_frame h s _ hv t ht
      exact ⟨hlen2, valid_of_elems_eq h _ s hv hlen2 (hall s (outside_self h s hv)), hall⟩
  · intro h s acc hv
    rw [lineateRange_nil]
    exact ⟨le_refl _, hv, fun _ _ => rfl⟩
  · intro c rest ihc ihrest h s acc hv
    rw [lineateRange_cons_single]
    obtain ⟨hlen1, hv1, hframe1⟩ := ihc h s acc hv
    obtain ⟨hlen2, hv2, hframe2⟩ := ihrest (lineateRange h s acc [c]).1 s
      (lineateRange h s acc [c]).2 hv1
    refine ⟨le_trans hlen1 hlen2, hv2, ?_⟩
    intro t ht
    rw [hframe2 t (outside_mono h _ s t hlen1 ht)]
    exact hframe1 t ht

theorem depthCmd_pos (c : Command) : 0 < depthCmd c := by
  cases c with
  | mk n u d a f act hid subs => simp [depthCmd]

theorem depthRange_cons (c : Command) (rest : List Command) :
    depthRange (c :: rest) = max (depthCmd c) (depthRange rest) := by
  simp [depthRange]

theorem depthRange_eq_nil (cmds : List Command) (h : depthRange cmds ≤ 0) : cmds = [] := by
  cases cmds with
  | nil => rfl
  | cons c rest =>
    rw [depthRange_cons] at h
    have := depthCmd_pos c
    omega

theorem record_eq_of_outside (h h1 : Heap) (acc : List command)
    (hframe : ∀ r ∈ acc, r.Lineage.elems h1 = r.Lineage.elems h) :
    acc.map (command.record h1) = acc.map (command.record h) := by
  apply List.map_congr_left
  intro r hr
  simp only [command.record, hframe r hr]

theorem preorderRange_single (lineage : List Command) (c : Command) :
    preorderRange lineage [c] = preorderCmd lineage c := by
  simp [preorderRange]

theorem preorderRange_nil (lineage : List Command) : preorderRange lineage [] = [] := by
  simp [preorderRange]

theorem preorderCmd_visible (lineage : List Command) (c : Command) (hh : c.Hidden = false) :
    preorderCmd lineage c = ⟨c, lineage⟩ :: preorderRange (lineage ++ [c]) c.Subcommands := by
  cases c with
  | mk n u d a f act hid subs =>
    simp only [Command.Hidden] at hh
    subst hh
    simp [preorderCmd, Command.Subcommands]

theorem preorderCmd_hidden (lineage : List Command) (c : Command) (hh : c.Hidden = true) :
    preorderCmd lineage c = [] := by
  cases c with
  | mk n u d a f act hid subs =>
    simp only [Command.Hidden] at hh
    subst hh
    simp [preorderCmd]

/-- In trees of depth at most `k`, under a lineage that is fresh over `k`
levels, every record keeps the lineage it was made with. -/
theorem lineate_intact_aux :
    (∀ c : Command, LoopIntact [c]) ∧ (∀ cmds : List Command, LoopIntact cmds) := by
  apply Command.induct
  · intro n u d a f act hid subs ih k h s acc hk hfresh hv hacc
    cases hid with
    | true =>
      rw [lineateRange_single_hidden h s acc (Command.mk n u d a f act true subs) rfl]
      rw [preorderRange_single,
        preorderCmd_hidden _ (Command.mk n u d a f act true subs) rfl, List.append_nil]
      exact ⟨hacc, rfl⟩
    | false =>
      obtain ⟨hlenF, hvF, hframeF⟩ :=
        lineate_frame.1 (Command.mk n u d a f act false subs) h s acc hv
      rw [lineateRange_single_visible h s acc (Command.mk n u d a f act false subs) rfl]
        at hlenF hvF hframeF ⊢
      simp only [Command.Subcommands] at hlenF hvF hframeF ⊢
      rw [preorderRange_single, preorderCmd_visible _ (Command.mk n u d a f act false subs) rfl]
      simp only [Command.Subcommands]
      have hdepth : depthRange subs + 1 ≤ k := by
        simpa [depthRange, depthCmd] using hk
      have haccEq := record_eq_of_outside h _ acc (fun r hr => hframeF r.Lineage (hacc r hr))
      have hself := hframeF s (outside_self h s hv)
      rcases k with _ | k1
      · omega
      · rcases k1 with _ | k2
        · have hsubs := depthRange_eq_nil subs (by omega)
          subst hsubs
          simp only [lineateRange_nil, SliceStable, List.append_nil, preorderRange_nil] at *
          constructor
          · intro r hr
            rw [List.mem_append, List.mem_singleton] at hr
            rcases hr with hr | rfl
            · exact outside_mono h _ s _ hlenF (hacc r hr)
            · exact outside_self _ s hvF
          · rw [List.map_append, haccEq]
            simp only [List.map_cons, List.map_nil, command.record, hself]
        · obtain ⟨hfull, hfresh1⟩ := hfresh
          obtain ⟨he1, _, hl1, hc1, _⟩ :=
            appendSlice_elems_alloc h s (Command.mk n u d a f act false subs) hv hfull
          have ih1 := ih (k2 + 1) (appendSlice h s (Command.mk n u d a f act false subs)).1
            (appendSlice h s (Command.mk n u d a f act false subs)).2 [] (by omega)
            (by rw [hl1, hc1]; exact hfresh1) (appendSlice_valid h s _ hv)
            (fun r hr => by cases hr)
          obtain ⟨hout1, hperm1⟩ := ih1
          rw [he1] at hperm1
          simp only [List.map_nil, List.nil_append] at hperm1
          constructor
          · intro r hr
            rw [List.mem_append, List.mem_append, List.mem_singleton] at hr
            rcases hr with (hr | rfl) | hr
            · exact outside_mono h _ s _ hlenF (hacc r hr)
            · exact outside_self _ s hvF
            · have hr2 := (SliceStable_perm _ _).subset hr
              rcases hout1 r hr2 with hz | ⟨hlt, _⟩
              · exact Or.inl hz
              · exact Or.inr ⟨hlt, fun hsp => absurd hsp hfull⟩
          · rw [List.map_append, List.map_append, haccEq, sorted_records]
            simp only [List.map_cons, List.map_nil, command.record, hself]
            rw [SliceStable_congr_right recordLess _ _ _
              (SliceStable_idem recordLess recordLess_trans recordLess_asymm _)]
            rw [SliceStable_congr_right recordLess _ _ _ hperm1]
            simp only [List.append_assoc, List.singleton_append]
  · intro k h s acc _ _ _ hacc
    rw [lineateRange_nil, preorderRange_nil, List.append_nil]
    exact ⟨hacc, rfl⟩
  · intro c rest ihc ihrest k h s acc hk hfresh hv hacc
    rw [depthRange_cons] at hk
    have hkc : depthRange [c] ≤ k := by
      rw [depthRange_cons]
      simp only [depthRange]
      omega
    obtain ⟨hlenF, hvF, hframeF⟩ := lineate_frame.1 c h s acc hv
    obtain ⟨hout1, hperm1⟩ := ihc k h s acc hkc hfresh hv hacc
    obtain ⟨hout2, hperm2⟩ := ihrest k (lineateRange h s acc [c]).1 s
      (lineateRange h s acc [c]).2 (by omega) hfresh hvF hout1
    rw [lineateRange_cons_single]
    refine ⟨hout2, hperm2.trans ?_⟩
    rw [hframeF s (outside_self h s hv), preorderRange_cons, ← List.append_assoc]
    rw [preorderRange_single] at hperm1
    exact SliceStable_congr_left recordLess recordLess_trans recordLess_asymm _ _ _ hperm1

theorem lineateRange_shallow (cmds : List Command) (hd : depthRange cmds ≤ 4) :
    SliceStable recordLess
        ((lineateRange [] Slice.nil [] cmds).2.map
          (command.record (lineateRange [] Slice.nil [] cmds).1)) =
      lineateSpec cmds := by
  have hv : Valid [] Slice.nil := by
    constructor
    · simp [Slice.nil]
    · intro hlt
      simp [Slice.nil] at hlt
  have hfresh : Fresh Slice.nil.len Slice.nil.cap 4 := by
    simp [Fresh, Slice.nil, nextslicecap]
  obtain ⟨_, hsort⟩ := lineate_intact_aux.2 cmds 4 [] Slice.nil [] hd hfresh hv
    (fun r hr => by cases hr)
  simp only [List.map_nil, List.nil_append] at hsort
  have he : Slice.nil.elems [] = [] := rfl
  rw [he] at hsort
  exact hsort

/-- In a tree of depth at most four `lineate(cmds, nil)` is the flattened list
of the specification: the pre-order traversal of the visible nodes, each with
its ancestors as lineage, stable-sorted once by `fullname("")`. -/
theorem lineate_eq_spec_of_shallow (cmds : List Command) (hd : depthRange cmds ≤ 4) :
    (lineate [] cmds Slice.nil).2.map (command.record (lineate [] cmds Slice.nil).1) =
      lineateSpec cmds := by
  rw [lineate_eq]
  simp only
  rw [sorted_records]
  exact lineateRange_shallow cmds hd

/-- In a tree of depth at most four every record of `lineate(cmds, nil)` holds
its ancestors as lineage. -/
theorem intact_of_shallow (cmds : List Command) (hd : depthRange cmds ≤ 4) : Intact cmds := by
  unfold Intact
  rw [lineate_eq_spec_of_shallow cmds hd]
  exact SliceStable_perm _ _

/-- C16, amended, for the roots `a > {b, c}` and `d` and the space. -/
theorem fullname_unique_witness :
    ((lineate [] exampleSmall Slice.nil).2.map
      (fun r => r.fullname (lineate [] exampleSmall Slice.nil).1 (String.singleton ' '))).Nodup :=
  fullname_unique exampleSmall ' ' (by decide) (by decide)
    (intact_of_shallow exampleSmall (by decide))

end Manual
